import Mathlib

/-!
Verification of the document model of the todome language server.

The development shallowly embeds the Rust sources:
  * `src/structure/position.rs` / `src/language_server/position.rs`
    (byte offset / point / editor-position conversions),
  * `src/structure/syntax.rs` (the `Cst` tree, tree queries, the
    contextual walk, `Document::parse`, `DocumentCache`),
  * `src/language_server/completion.rs` (completion candidates),
  * `src/language_server/diagnostics.rs` (date diagnostics).

Text is modelled as a `List Char` of Unicode scalar values; byte offsets
are UTF-8 byte counts and editor columns are UTF-16 code-unit counts,
computed explicitly.  Rust operations that can panic (string slicing at
an out-of-bounds or non-boundary index, `unwrap` on `None`) are modelled
by `Option`/error results, as noted at each definition.
-/

/-- Number of bytes of the UTF-8 encoding of a scalar value
(`char::len_utf8` in Rust). -/
def utf8Len (c : Char) : Nat :=
  if c.toNat < 0x80 then 1
  else if c.toNat < 0x800 then 2
  else if c.toNat < 0x10000 then 3
  else 4

/-- Number of UTF-16 code units of a scalar value (`char::len_utf16`). -/
def utf16Len (c : Char) : Nat :=
  if c.toNat < 0x10000 then 1 else 2

/-- UTF-8 byte length of a text (`str::len`). -/
def byteLen : List Char → Nat
  | [] => 0
  | c :: s => utf8Len c + byteLen s

/-- Number of UTF-16 code units of a text
(`text.encode_utf16().collect_vec().len()`). -/
def utf16Count : List Char → Nat
  | [] => 0
  | c :: s => utf16Len c + utf16Count s

/-- Drop exactly `n` leading bytes from a text.  Returns `none` when `n`
overruns the text or does not land on a character boundary; a Rust byte
slice `&s[n..]` panics in those cases. -/
def dropBytes : List Char → Nat → Option (List Char)
  | s, 0 => some s
  | [], _ + 1 => none
  | c :: s, n + 1 =>
    if utf8Len c ≤ n + 1 then dropBytes s (n + 1 - utf8Len c) else none

/-- Take exactly `n` leading bytes of a text, with the same boundary
behaviour as `dropBytes`. -/
def takeBytes : List Char → Nat → Option (List Char)
  | _, 0 => some []
  | [], _ + 1 => none
  | c :: s, n + 1 =>
    if utf8Len c ≤ n + 1 then (takeBytes s (n + 1 - utf8Len c)).map (c :: ·)
    else none

/-- The byte slice `&s[a..b]`; `none` models the Rust panic on an
invalid range or a non-boundary endpoint. -/
def sliceBytes (s : List Char) (a b : Nat) : Option (List Char) :=
  if a ≤ b then (dropBytes s a).bind fun t => takeBytes t (b - a) else none

/-- Byte length of the UTF-8 re-encoding of the first `k` UTF-16 code
units of a text: `String::from_utf16_lossy(text.encode_utf16().take(k)).len()`.
Cutting a surrogate pair in half leaves a lone surrogate, which the lossy
decoding replaces by U+FFFD (3 bytes in UTF-8). -/
def utf16TakeBytes : List Char → Nat → Nat
  | _, 0 => 0
  | [], _ + 1 => 0
  | c :: s, k + 1 =>
    if utf16Len c ≤ k + 1 then utf8Len c + utf16TakeBytes s (k + 1 - utf16Len c)
    else 3

/-- Byte offsets of the line starts after each newline:
`text.match_indices('\n').map(|(p, _)| p + 1)` in `Document::parse`,
with `pos` the byte offset of the head of `s` in the whole text. -/
def lineStartsAux : List Char → Nat → List Nat
  | [], _ => []
  | c :: s, pos =>
    if c = '\n' then (pos + 1) :: lineStartsAux s (pos + 1)
    else lineStartsAux s (pos + utf8Len c)

/-- The `lines` table of a `Document`: `vec![0]` extended with the
offsets just after each newline. -/
def lineStarts (text : List Char) : List Nat :=
  0 :: lineStartsAux text 0

/-- Row lookup shared by the `try_pos_from`/`try_from_bytes` conversions:
`lines.binary_search(&pos)` mapped through `Ok(i) => i, Err(i) => i - 1`.
On a strictly increasing table (which `lineStarts` always is) this is
the number of entries `≤ pos`, minus one. -/
def findRow (lines : List Nat) (pos : Nat) : Nat :=
  (lines.filter fun x => decide (x ≤ pos)).length - 1

/-- `b` is a UTF-8 character boundary of `s` (including `0` and the
total byte length). -/
def IsBoundary (s : List Char) (b : Nat) : Prop :=
  ∃ u v, s = u ++ v ∧ byteLen u = b

/-- A `tree_sitter::Point`: zero-based row and UTF-8 byte column. -/
structure Point where
  row : Nat
  column : Nat
deriving DecidableEq, Repr

/-- An editor (`lsp_types`) `Position`: zero-based row and UTF-16
code-unit column. -/
structure Position where
  line : Nat
  character : Nat
deriving DecidableEq, Repr

/-- A byte range of a syntax node (`TextRange { start, end }`). -/
structure TextRange where
  start : Nat
  stop : Nat
deriving DecidableEq, Repr

/-- Modelled from the spec: range-containment used by the tree queries is
inclusive at both endpoints (`start <= cursor && cursor <= end`); the
`TextRange::includes` implementation itself is not under `src/`, but the
spec and the sibling revision `parser.rs::includes` both use the
inclusive comparison. -/
def TextRange.includes (r : TextRange) (cursor : Nat) : Bool :=
  decide (r.start ≤ cursor) && decide (cursor ≤ r.stop)

/-- Status markers (`StatusKind` in `structure/syntax.rs`). -/
inductive StatusKind where
  | todo
  | doing
  | done
  | cancelled
deriving DecidableEq, Repr

/-- A calendar date, modelled as its day number (days since
1970-01-01).  `chrono::NaiveDate` is totally ordered by calendar order
and supports whole-day arithmetic, which the day number represents
exactly; `mkDate` builds the number from a `YYYY-MM-DD` triple. -/
abbrev Date : Type := Int

/-- Day number of the civil date `y-m-d` (days-from-civil algorithm),
matching `chrono::NaiveDate`'s ordering and day arithmetic. -/
def mkDate (y m d : Nat) : Date :=
  let yAdj : Nat := if m ≤ 2 then y - 1 else y
  let era : Nat := yAdj / 400
  let yoe : Nat := yAdj - era * 400
  let mp : Nat := if 2 < m then m - 3 else m + 9
  let doy : Nat := (153 * mp + 2) / 5 + d - 1
  let doe : Nat := yoe * 365 + yoe / 4 - yoe / 100 + doy
  ((era * 146097 + doe : Nat) : Int) - 719468

/-- Subtracting `chrono::Duration::days n` from a date. -/
def Date.subDays (d : Date) (n : Nat) : Date := (d : Int) - n

/-- Adding `chrono::Duration::days n` to a date. -/
def Date.addDays (d : Date) (n : Nat) : Date := (d : Int) + n

mutual
/-- A node of the owned syntax tree (`Cst` in `structure/syntax.rs`):
byte range, rule payload, and the side-collections of comment and error
children. -/
inductive Cst where
  | mk (range : TextRange) (rule : Rule) (comments : List Cst) (errors : List Cst)

/-- The tagged union over node kinds (`Rule` in `structure/syntax.rs`). -/
inductive Rule where
  | sourceFile (children : List Cst)
  | task (status : Option Cst) (meta : List Cst) (text : Cst) (children : List Cst)
  | header (status : Option Cst) (meta : List Cst) (children : List Cst)
  | status (kind : StatusKind)
  | priority (value : List Char)
  | due (value : Date)
  | keyval (key value : List Char)
  | category (name : List Char)
  | text (content : List Char) (tags : List Cst)
  | tag (name : List Char)
  | comment (content : List Char)
  | error
end

/-- The node's byte range. -/
def Cst.range : Cst → TextRange
  | .mk r _ _ _ => r

/-- The node's rule payload. -/
def Cst.rule : Cst → Rule
  | .mk _ ru _ _ => ru

/-- The node's comment side-collection. -/
def Cst.comments : Cst → List Cst
  | .mk _ _ cs _ => cs

/-- The node's error side-collection. -/
def Cst.errors : Cst → List Cst
  | .mk _ _ _ es => es

/-- `Rule::as_status`. -/
def Rule.asStatus : Rule → Option StatusKind
  | .status k => some k
  | _ => none

/-- `Rule::as_category`. -/
def Rule.asCategory : Rule → Option (List Char)
  | .category n => some n
  | _ => none

/-- `Rule::as_tag`. -/
def Rule.asTag : Rule → Option (List Char)
  | .tag n => some n
  | _ => none

mutual
/-- Size measure used to justify the non-structural tree recursions. -/
def Cst.size : Cst → Nat
  | .mk _ r cs es => 1 + r.size + sizeListCst cs + sizeListCst es

def Rule.size : Rule → Nat
  | .sourceFile cs => 1 + sizeListCst cs
  | .task st meta tx ch => 1 + sizeOptCst st + sizeListCst meta + tx.size + sizeListCst ch
  | .header st meta ch => 1 + sizeOptCst st + sizeListCst meta + sizeListCst ch
  | .status _ => 1
  | .priority _ => 1
  | .due _ => 1
  | .keyval _ _ => 1
  | .category _ => 1
  | .text _ tags => 1 + sizeListCst tags
  | .tag _ => 1
  | .comment _ => 1
  | .error => 1

def sizeOptCst : Option Cst → Nat
  | none => 0
  | some c => 1 + c.size

def sizeListCst : List Cst → Nat
  | [] => 0
  | c :: cs => 1 + c.size + sizeListCst cs
end

/-- `Cst::get_children(include_error, include_comment)`: the semantic
children in source order, optionally extended with the error and
comment side-collections. -/
def Cst.getChildren (cst : Cst) (includeError includeComment : Bool) : List Cst :=
  let v : List Cst :=
    match cst.rule with
    | .sourceFile children => children
    | .task st meta tx children => st.toList ++ meta ++ [tx] ++ children
    | .header st meta children => st.toList ++ meta ++ children
    | .text _ tags => tags
    | _ => []
  (v ++ (if includeError then cst.errors else [])) ++
    (if includeComment then cst.comments else [])

theorem size_lt_of_mem_sizeListCst {c : Cst} {l : List Cst} (h : c ∈ l) :
    c.size < sizeListCst l := by
  induction l with
  | nil => cases h
  | cons d l ih =>
    rcases List.mem_cons.mp h with h | h
    · subst h; simp [sizeListCst]; omega
    · have := ih h; simp [sizeListCst]; omega

/-- Every child produced by `get_children` is a proper subtree. -/
theorem size_lt_of_mem_getChildren {c cst : Cst} {e m : Bool}
    (h : c ∈ cst.getChildren e m) : c.size < cst.size := by
  obtain ⟨r, ru, cs, es⟩ := cst
  simp only [Cst.getChildren, Cst.rule, Cst.errors, Cst.comments, List.mem_append] at h
  have hsz : Cst.size ⟨r, ru, cs, es⟩ = 1 + ru.size + sizeListCst cs + sizeListCst es := by
    simp [Cst.size]
  have herr : c ∈ (if e then es else ([] : List Cst)) → c.size < Cst.size ⟨r, ru, cs, es⟩ := by
    intro hc
    split at hc
    · have := size_lt_of_mem_sizeListCst hc; omega
    · cases hc
  have hcom : c ∈ (if m then cs else ([] : List Cst)) → c.size < Cst.size ⟨r, ru, cs, es⟩ := by
    intro hc
    split at hc
    · have := size_lt_of_mem_sizeListCst hc; omega
    · cases hc
  rcases h with (h | h) | h
  · cases ru with
    | sourceFile ch =>
      simp only at h
      have := size_lt_of_mem_sizeListCst h
      simp [Rule.size] at hsz ⊢; omega
    | task st meta tx ch =>
      simp only [List.mem_append, List.mem_singleton, Option.mem_toList,
        Option.mem_def] at h
      have hsz2 : Rule.size (.task st meta tx ch) =
          1 + sizeOptCst st + sizeListCst meta + tx.size + sizeListCst ch := by
        simp [Rule.size]
      rcases h with ((h | h) | h) | h
      · rcases st with _ | s
        · cases h
        · cases h
          have : sizeOptCst (some c) = 1 + c.size := by simp [sizeOptCst]
          omega
      · have := size_lt_of_mem_sizeListCst h; omega
      · subst h; omega
      · have := size_lt_of_mem_sizeListCst h; omega
    | header st meta ch =>
      simp only [List.mem_append, Option.mem_toList, Option.mem_def] at h
      have hsz2 : Rule.size (.header st meta ch) =
          1 + sizeOptCst st + sizeListCst meta + sizeListCst ch := by
        simp [Rule.size]
      rcases h with (h | h) | h
      · rcases st with _ | s
        · cases h
        · cases h
          have : sizeOptCst (some c) = 1 + c.size := by simp [sizeOptCst]
          omega
      · have := size_lt_of_mem_sizeListCst h; omega
      · have := size_lt_of_mem_sizeListCst h; omega
    | text content tags =>
      simp only at h
      have := size_lt_of_mem_sizeListCst h
      have hsz2 : Rule.size (.text content tags) = 1 + sizeListCst tags := by
        simp [Rule.size]
      omega
    | status k => cases h
    | priority v => cases h
    | due v => cases h
    | keyval k v => cases h
    | category n => cases h
    | tag n => cases h
    | comment n => cases h
    | error => cases h
  · exact herr h
  · exact hcom h

/-- `Cst::search_aux`: recursive collection, children first (in order),
then the node itself when the predicate holds. -/
def Cst.searchAux (p : Cst → Bool) (e m : Bool) (cst : Cst) : List Cst :=
  (((cst.getChildren e m).attach.map fun x => Cst.searchAux p e m x.1).flatten) ++
    (if p cst then [cst] else [])
termination_by cst.size
decreasing_by exact size_lt_of_mem_getChildren x.2

/-- `Cst::search(predicate, include_error, include_comment)`: the
reversed accumulation of `search_aux`. -/
def Cst.search (cst : Cst) (p : Cst → Bool) (e m : Bool) : List Cst :=
  (Cst.searchAux p e m cst).reverse

/-- `Cst::get_csts_on_cursor`: containment descent; each level prepends
the recursive result of the first child containing the cursor and then
pushes itself, so the innermost node ends up first and the root last. -/
def Cst.getCstsOnCursor (cst : Cst) (cursor : Nat) : List Cst :=
  if cst.range.includes cursor then
    (match h : (cst.getChildren true true).find? (fun c => c.range.includes cursor) with
      | some c => Cst.getCstsOnCursor c cursor
      | none => []) ++ [cst]
  else []
termination_by cst.size
decreasing_by exact size_lt_of_mem_getChildren (List.mem_of_find?_eq_some h)

/-- The inherited traversal context (`Context` in `structure/syntax.rs`).
The `HashMap` of explicit key-values is modelled as an association list
(insertion overwrites the key; iteration order is never observed by the
verified operations). -/
structure Context where
  explicitStatus : List StatusKind
  explicitPriority : List (List Char)
  explicitKeyval : List (List Char × List Char)
  explicitDue : List Date
  categories : List (List Char)
deriving DecidableEq, Repr

/-- `Context::default()`. -/
def Context.default : Context := ⟨[], [], [], [], []⟩

/-- `HashMap::insert`: the new binding replaces any previous binding of
the same key. -/
def insertKeyval (map : List (List Char × List Char)) (k v : List Char) :
    List (List Char × List Char) :=
  (k, v) :: map.filter fun p => decide ¬(p.1 = k)

/-- Shared body of the `Task` and `Header` arms of `Context::with_cst`:
push the explicit status (when present) and fold the meta entries onto
the stacks/map.  `as_status().unwrap()` on a non-status node and the
`unreachable!` on a non-meta rule are Rust aborts on malformed trees;
they are modelled as no-ops, which no verified claim exercises. -/
def Context.pushItem (ctx : Context) (st : Option Cst) (meta : List Cst) : Context :=
  let ctx1 :=
    match st with
    | some s =>
      match s.rule.asStatus with
      | some k => { ctx with explicitStatus := ctx.explicitStatus ++ [k] }
      | none => ctx
    | none => ctx
  meta.foldl (fun acc c =>
    match c.rule with
    | .priority v => { acc with explicitPriority := acc.explicitPriority ++ [v] }
    | .due v => { acc with explicitDue := acc.explicitDue ++ [v] }
    | .keyval k v => { acc with explicitKeyval := insertKeyval acc.explicitKeyval k v }
    | .category n => { acc with categories := acc.categories ++ [n] }
    | _ => acc) ctx1

/-- `Context::with_cst`: reset at the source file, push own entries at a
task or header, pass through unchanged at a comment or error.  Other
rules are `unreachable!` in the source (a Rust abort), modelled as
pass-through; the contextual walk never reaches them. -/
def Context.withCst (ctx : Context) (cst : Cst) : Context :=
  match cst.rule with
  | .sourceFile _ => Context.default
  | .task st meta _ _ => ctx.pushItem st meta
  | .header st meta _ => ctx.pushItem st meta
  | _ => ctx

/-- The children visited by `search_task_aux`: only source files,
headers and tasks carry nested children in this walk. -/
def Cst.taskChildren (cst : Cst) : List Cst :=
  match cst.rule with
  | .sourceFile ch => ch
  | .task _ _ _ ch => ch
  | .header _ _ ch => ch
  | _ => []

theorem size_lt_of_mem_taskChildren {c cst : Cst} (h : c ∈ cst.taskChildren) :
    c.size < cst.size := by
  obtain ⟨r, ru, cs, es⟩ := cst
  simp only [Cst.taskChildren, Cst.rule] at h
  have hsz : Cst.size ⟨r, ru, cs, es⟩ = 1 + ru.size + sizeListCst cs + sizeListCst es := by
    simp [Cst.size]
  cases ru with
  | sourceFile ch =>
    have := size_lt_of_mem_sizeListCst (show c ∈ ch from h)
    have h2 : Rule.size (.sourceFile ch) = 1 + sizeListCst ch := by simp [Rule.size]
    omega
  | task st meta tx ch =>
    have := size_lt_of_mem_sizeListCst (show c ∈ ch from h)
    have h2 : Rule.size (.task st meta tx ch) =
        1 + sizeOptCst st + sizeListCst meta + tx.size + sizeListCst ch := by
      simp [Rule.size]
    omega
  | header st meta ch =>
    have := size_lt_of_mem_sizeListCst (show c ∈ ch from h)
    have h2 : Rule.size (.header st meta ch) =
        1 + sizeOptCst st + sizeListCst meta + sizeListCst ch := by
      simp [Rule.size]
    omega
  | status k => cases h
  | priority v => cases h
  | due v => cases h
  | keyval k v => cases h
  | category n => cases h
  | text content tags => cases h
  | tag n => cases h
  | comment n => cases h
  | error => cases h

/-- `Cst::search_task_aux`: extend the context with the current node,
test the predicate, then descend into the nested children, passing the
extended context to every child by value. -/
def Cst.searchTaskAux (p : Context → Bool) (context : Context) (cst : Cst) : List Cst :=
  let ctx := context.withCst cst
  (if p ctx then [cst] else []) ++
    ((cst.taskChildren.attach.map fun x => Cst.searchTaskAux p ctx x.1).flatten)
termination_by cst.size
decreasing_by exact size_lt_of_mem_taskChildren x.2

/-- `Cst::search_task`: run the contextual walk from the default
context. -/
def Cst.searchTask (cst : Cst) (p : Context → Bool) : List Cst :=
  Cst.searchTaskAux p Context.default cst

/-- A parsed document (`Document` in `structure/syntax.rs`): the raw
text, the line-start table, and the root of the syntax tree. -/
structure Document where
  text : List Char
  lines : List Nat
  root : Cst

/-- A document as `Document::parse` assembles it from a text and an
already-converted root: the line table is always `lineStarts text`. -/
def mkDoc (text : List Char) (root : Cst) : Document :=
  ⟨text, lineStarts text, root⟩

/-- `PosFrom<usize> for Point` (`try_pos_from`): byte offset to
(row, byte column).  The row index into `lines` cannot miss (the filter
in `findRow` keeps at least the leading `0`), so the Rust index
expression `document.lines()[row]` is modelled with a default. -/
def byteToPoint (d : Document) (pos : Nat) : Option Point :=
  if byteLen d.text < pos then none
  else
    let row := findRow d.lines pos
    some ⟨row, pos - d.lines.getD row 0⟩

/-- `PosFrom<Point> for usize` (`try_pos_from`): requires the row to
exist and the column to land strictly inside the line's byte span. -/
def pointToByte (d : Document) (p : Point) : Option Nat :=
  match d.lines[p.row]? with
  | none => none
  | some idxline =>
    let maxIdx := (d.lines[p.row + 1]?).getD (byteLen d.text)
    if idxline + p.column < maxIdx then some (idxline + p.column) else none

/-- `PosFrom<usize> for Position` (`try_pos_from`): byte offset to
(row, UTF-16 column); the UTF-16 column counts the code units of the
slice from the line start to the offset.  Slicing at a non-boundary
offset panics in Rust, modelled by `none`. -/
def byteToPosition (d : Document) (pos : Nat) : Option Position :=
  if byteLen d.text < pos then none
  else
    let row := findRow d.lines pos
    (sliceBytes d.text (d.lines.getD row 0) pos).map fun sub =>
      ⟨row, utf16Count sub⟩

/-- `PosFrom<Position> for usize` (`try_pos_from`): take the line's
text, consume `character` UTF-16 code units (lossily), and return the
line start plus the UTF-8 byte length of the re-encoding. -/
def positionToByte (d : Document) (p : Position) : Option Nat :=
  match d.lines[p.line]? with
  | none => none
  | some start =>
    let stop := (d.lines[p.line + 1]?).getD (byteLen d.text)
    (sliceBytes d.text start stop).map fun lineText =>
      start + utf16TakeBytes lineText p.character

theorem utf8Len_pos (c : Char) : 0 < utf8Len c := by
  unfold utf8Len
  split
  · exact Nat.one_pos
  · split
    · exact Nat.two_pos
    · split
      · omega
      · omega

theorem utf16Len_pos (c : Char) : 0 < utf16Len c := by
  unfold utf16Len
  split
  · exact Nat.one_pos
  · exact Nat.two_pos

theorem byteLen_append (u v : List Char) :
    byteLen (u ++ v) = byteLen u + byteLen v := by
  induction u with
  | nil => simp [byteLen]
  | cons c u ih => simp [byteLen, ih]; omega

theorem byteLen_eq_zero {u : List Char} (h : byteLen u = 0) : u = [] := by
  cases u with
  | nil => rfl
  | cons c u => simp [byteLen] at h; have := utf8Len_pos c; omega

theorem utf16Count_append (u v : List Char) :
    utf16Count (u ++ v) = utf16Count u + utf16Count v := by
  induction u with
  | nil => simp [utf16Count]
  | cons c u ih => simp [utf16Count, ih]; omega

theorem dropBytes_append (u v : List Char) :
    dropBytes (u ++ v) (byteLen u) = some v := by
  induction u with
  | nil => simp [byteLen, dropBytes]
  | cons c u ih =>
    have hc := utf8Len_pos c
    obtain ⟨n, hn⟩ : ∃ n, byteLen (c :: u) = n + 1 := by
      simp [byteLen]; omega
    have hle : utf8Len c ≤ n + 1 := by simp [byteLen] at hn; omega
    have hsub : n + 1 - utf8Len c = byteLen u := by simp [byteLen] at hn; omega
    rw [hn]
    show dropBytes (c :: (u ++ v)) (n + 1) = some v
    rw [dropBytes, if_pos hle, hsub, ih]

theorem takeBytes_append (u v : List Char) :
    takeBytes (u ++ v) (byteLen u) = some u := by
  induction u with
  | nil => simp [byteLen, takeBytes]
  | cons c u ih =>
    have hc := utf8Len_pos c
    obtain ⟨n, hn⟩ : ∃ n, byteLen (c :: u) = n + 1 := by
      simp [byteLen]; omega
    have hle : utf8Len c ≤ n + 1 := by simp [byteLen] at hn; omega
    have hsub : n + 1 - utf8Len c = byteLen u := by simp [byteLen] at hn; omega
    rw [hn]
    show takeBytes (c :: (u ++ v)) (n + 1) = some (c :: u)
    rw [takeBytes, if_pos hle, hsub, ih]
    rfl

/-- Slicing a text at two interior boundaries returns the middle part. -/
theorem sliceBytes_decomp (p u z : List Char) :
    sliceBytes (p ++ u ++ z) (byteLen p) (byteLen p + byteLen u) = some u := by
  unfold sliceBytes
  rw [if_pos (by omega)]
  rw [List.append_assoc, dropBytes_append]
  show takeBytes (u ++ z) (byteLen p + byteLen u - byteLen p) = some u
  rw [Nat.add_sub_cancel_left, takeBytes_append]

theorem utf16TakeBytes_append (u v : List Char) :
    utf16TakeBytes (u ++ v) (utf16Count u) = byteLen u := by
  induction u with
  | nil => simp [utf16Count, utf16TakeBytes, byteLen]
  | cons c u ih =>
    have hc := utf16Len_pos c
    obtain ⟨k, hk⟩ : ∃ k, utf16Count (c :: u) = k + 1 := by
      simp [utf16Count]; omega
    have hle : utf16Len c ≤ k + 1 := by simp [utf16Count] at hk; omega
    have hsub : k + 1 - utf16Len c = utf16Count u := by
      simp [utf16Count] at hk; omega
    rw [hk]
    show utf16TakeBytes (c :: (u ++ v)) (k + 1) = byteLen (c :: u)
    rw [utf16TakeBytes]
    simp only [if_pos hle, hsub, ih, byteLen]

/-- Two boundary decompositions of the same text are nested. -/
theorem boundary_nest {text p x q y : List Char}
    (hp : text = p ++ x) (hq : text = q ++ y)
    (hle : byteLen p ≤ byteLen q) :
    ∃ m, q = p ++ m ∧ x = m ++ y := by
  have hpp : p <+: text := ⟨x, hp.symm⟩
  have hqp : q <+: text := ⟨y, hq.symm⟩
  rcases List.prefix_or_prefix_of_prefix hpp hqp with h | h
  · obtain ⟨m, hm⟩ := h
    refine ⟨m, hm.symm, ?_⟩
    have : p ++ x = p ++ (m ++ y) := by
      rw [← List.append_assoc, hm, ← hq, hp]
    exact List.append_cancel_left this
  · obtain ⟨m, hm⟩ := h
    have hb : byteLen p = byteLen q + byteLen m := by
      rw [← hm, byteLen_append]
    have hm0 : m = [] := byteLen_eq_zero (by omega)
    subst hm0
    simp only [List.append_nil] at hm
    subst hm
    refine ⟨[], by simp, ?_⟩
    simp only [List.nil_append]
    have : q ++ x = q ++ y := by rw [← hp, hq]
    exact List.append_cancel_left this

theorem lineStartsAux_mem_gt {s : List Char} {pos e : Nat}
    (h : e ∈ lineStartsAux s pos) : pos < e := by
  induction s generalizing pos with
  | nil => simp [lineStartsAux] at h
  | cons c s ih =>
    rw [lineStartsAux] at h
    split at h
    · rcases List.mem_cons.mp h with h | h
      · omega
      · have := ih h; omega
    · have := ih h
      have := utf8Len_pos c
      omega

theorem lineStartsAux_sorted (s : List Char) (pos : Nat) :
    (lineStartsAux s pos).Pairwise (· < ·) := by
  induction s generalizing pos with
  | nil => simp [lineStartsAux]
  | cons c s ih =>
    rw [lineStartsAux]
    split
    · exact List.pairwise_cons.mpr ⟨fun e he => lineStartsAux_mem_gt he, ih _⟩
    · exact ih _

theorem lineStarts_sorted (text : List Char) :
    (lineStarts text).Pairwise (· < ·) := by
  rw [lineStarts]
  exact List.pairwise_cons.mpr
    ⟨fun e he => lineStartsAux_mem_gt he, lineStartsAux_sorted _ _⟩

theorem lineStartsAux_mem_boundary {s : List Char} {pos e : Nat}
    (h : e ∈ lineStartsAux s pos) :
    ∃ u v, s = u ++ v ∧ e = pos + byteLen u := by
  induction s generalizing pos with
  | nil => simp [lineStartsAux] at h
  | cons c s ih =>
    rw [lineStartsAux] at h
    split at h
    · rename_i hc
      rcases List.mem_cons.mp h with h | h
      · refine ⟨[c], s, rfl, ?_⟩
        subst hc
        simp [h, byteLen, utf8Len]
      · obtain ⟨u, v, hs, he⟩ := ih h
        refine ⟨c :: u, v, by simp [hs], ?_⟩
        subst hc
        simp [byteLen, utf8Len] at he ⊢
        omega
    · obtain ⟨u, v, hs, he⟩ := ih h
      refine ⟨c :: u, v, by simp [hs], ?_⟩
      simp [byteLen] at he ⊢
      omega

/-- Every entry of the line-start table is a character boundary of the
text, in particular at most its byte length. -/
theorem lineStarts_mem_boundary {text : List Char} {e : Nat}
    (h : e ∈ lineStarts text) : IsBoundary text e := by
  rw [lineStarts] at h
  rcases List.mem_cons.mp h with h | h
  · exact ⟨[], text, rfl, by simp [byteLen, h.symm]⟩
  · obtain ⟨u, v, hs, he⟩ := lineStartsAux_mem_boundary h
    exact ⟨u, v, hs, by omega⟩

theorem byteLen_le_of_boundary {text : List Char} {e : Nat}
    (h : IsBoundary text e) : e ≤ byteLen text := by
  obtain ⟨u, v, hs, he⟩ := h
  subst hs
  rw [byteLen_append]
  omega

theorem filter_le_eq_takeWhile {l : List Nat} (hl : l.Pairwise (· < ·)) (b : Nat) :
    (l.filter fun x => decide (x ≤ b)) = l.takeWhile fun x => decide (x ≤ b) := by
  induction l with
  | nil => rfl
  | cons c t ih =>
    rcases List.pairwise_cons.mp hl with ⟨hc, ht⟩
    by_cases h : c ≤ b
    · rw [List.filter_cons_of_pos (by simpa using h),
        List.takeWhile_cons_of_pos (by simpa using h), ih ht]
    · rw [List.filter_cons_of_neg (by simpa using h),
        List.takeWhile_cons_of_neg (by simpa using h)]
      rw [List.filter_eq_nil_iff]
      intro a ha
      have := hc a ha
      simp
      omega

theorem head?_dropWhile_false {l : List α} {p : α → Bool} {a : α}
    (h : (l.dropWhile p).head? = some a) : p a = false := by
  induction l with
  | nil => simp [List.dropWhile] at h
  | cons c t ih =>
    rw [List.dropWhile_cons] at h
    split at h
    · exact ih h
    · rename_i hc
      simp at h
      subst h
      simpa using hc

/-- The row picked for a byte offset: its index is in range, its line
start is at most the offset, and the next line (when there is one)
starts strictly beyond the offset. -/
theorem findRow_spec (text : List Char) (b : Nat) :
    findRow (lineStarts text) b < (lineStarts text).length ∧
    (∀ s, (lineStarts text)[findRow (lineStarts text) b]? = some s → s ≤ b) ∧
    (∀ y, (lineStarts text)[findRow (lineStarts text) b + 1]? = some y → b < y) := by
  have hfilter : (lineStarts text).filter (fun x => decide (x ≤ b)) =
      (lineStarts text).takeWhile (fun x => decide (x ≤ b)) :=
    filter_le_eq_takeWhile (lineStarts_sorted text) b
  set tw := (lineStarts text).takeWhile (fun x => decide (x ≤ b)) with htw
  set dw := (lineStarts text).dropWhile (fun x => decide (x ≤ b)) with hdw
  have hsplit : tw ++ dw = lineStarts text :=
    List.takeWhile_append_dropWhile (fun x => decide (x ≤ b)) (lineStarts text)
  have htw1 : 1 ≤ tw.length := by
    rw [htw, lineStarts, List.takeWhile_cons_of_pos (by simp)]
    simp
  have htwle : tw.length ≤ (lineStarts text).length :=
    htw ▸ (List.takeWhile_prefix _).length_le
  have hrow : findRow (lineStarts text) b = tw.length - 1 := by
    rw [findRow, hfilter]
  refine ⟨by omega, ?_, ?_⟩
  · intro s hs
    rw [hrow, ← hsplit, List.getElem?_append_left (by omega)] at hs
    have := List.mem_takeWhile_imp (htw ▸ List.getElem?_mem hs)
    simpa using this
  · intro y hy
    rw [hrow, ← hsplit, List.getElem?_append_right (by omega)] at hy
    have hself : tw.length - 1 + 1 - tw.length = 0 := by omega
    rw [hself, ← List.head?_eq_getElem?] at hy
    have := head?_dropWhile_false (hdw ▸ hy)
    simp at this
    omega

/-- At any offset, the selected line start exists, is at most the
offset, and is a character boundary. -/
theorem findRow_start (text : List Char) (b : Nat) :
    ∃ s, (lineStarts text)[findRow (lineStarts text) b]? = some s ∧
      (lineStarts text).getD (findRow (lineStarts text) b) 0 = s ∧
      s ≤ b ∧ IsBoundary text s := by
  obtain ⟨hlt, hle, _⟩ := findRow_spec text b
  obtain ⟨s, hs⟩ : ∃ s, (lineStarts text)[findRow (lineStarts text) b]? = some s :=
    ⟨_, List.getElem?_eq_getElem hlt⟩
  refine ⟨s, hs, ?_, hle _ hs, ?_⟩
  · simp [List.getD_eq_getElem?_getD, hs]
  · exact lineStarts_mem_boundary (List.getElem?_mem hs)

theorem findRow_at_end (text : List Char) :
    findRow (lineStarts text) (byteLen text) = (lineStarts text).length - 1 := by
  rw [findRow]
  have hall : (lineStarts text).filter (fun x => decide (x ≤ byteLen text)) =
      lineStarts text :=
    List.filter_eq_self.mpr fun a ha => by
      simpa using byteLen_le_of_boundary (lineStarts_mem_boundary ha)
  rw [hall]

theorem lineStarts_ne_nil (text : List Char) : lineStarts text ≠ [] := by
  rw [lineStarts]; simp

/-- Point round trip for offsets strictly inside the text. -/
theorem pointRoundTrip (text : List Char) (root : Cst) (b : Nat)
    (hb : b < byteLen text) :
    (byteToPoint (mkDoc text root) b).bind
      (fun p => pointToByte (mkDoc text root) p) = some b := by
  obtain ⟨hlt, _, hnext⟩ := findRow_spec text b
  obtain ⟨s, hs, hsD, hsle, _⟩ := findRow_start text b
  rw [byteToPoint]
  simp only [mkDoc]
  rw [if_neg (by omega), Option.some_bind]
  rw [pointToByte]
  simp only [hsD, hs]
  cases hy : (lineStarts text)[findRow (lineStarts text) b + 1]? with
  | some y =>
    have hby := hnext y hy
    rw [if_pos (by simp [hy]; omega)]
    congr 1
    omega
  | none =>
    rw [if_pos (by simp [hy]; omega)]
    congr 1
    omega

/-- At the very end of the text the point conversion back fails: the
column check in `PosFrom<Point> for usize` is strict. -/
theorem pointRoundTrip_end (text : List Char) (root : Cst) :
    (byteToPoint (mkDoc text root) (byteLen text)).bind
      (fun p => pointToByte (mkDoc text root) p) = none := by
  obtain ⟨hlt, _, _⟩ := findRow_spec text (byteLen text)
  obtain ⟨s, hs, hsD, hsle, _⟩ := findRow_start text (byteLen text)
  rw [byteToPoint]
  simp only [mkDoc]
  rw [if_neg (by omega), Option.some_bind]
  rw [pointToByte]
  simp only [hsD, hs]
  have hnone : (lineStarts text)[findRow (lineStarts text) (byteLen text) + 1]? = none := by
    rw [List.getElem?_eq_none_iff, findRow_at_end]
    have : lineStarts text ≠ [] := lineStarts_ne_nil text
    have : 1 ≤ (lineStarts text).length := List.length_pos.mpr this
    omega
  rw [hnone]
  rw [if_neg (by simp; omega)]

/-- Position round trip at any character boundary, including the end of
the text. -/
theorem positionRoundTrip (text : List Char) (root : Cst) (b : Nat)
    (hb : IsBoundary text b) :
    (byteToPosition (mkDoc text root) b).bind
      (fun p => positionToByte (mkDoc text root) p) = some b := by
  have hble : b ≤ byteLen text := byteLen_le_of_boundary hb
  obtain ⟨hlt, _, hnext⟩ := findRow_spec text b
  obtain ⟨s, hs, hsD, hsle, hsbound⟩ := findRow_start text b
  obtain ⟨p, x, hp, hps⟩ := hsbound
  subst hps
  obtain ⟨q, v, hq, hqb⟩ := hb
  obtain ⟨u, hqp, hxu⟩ := boundary_nest hp hq (by omega)
  have htext : text = p ++ u ++ v := by rw [hq, hqp, List.append_assoc]
  have hbu : b = byteLen p + byteLen u := by
    rw [← hqb, hqp, byteLen_append]
  have hslice1 : sliceBytes text (byteLen p) b = some u := by
    have hsl := sliceBytes_decomp p u v
    rw [← htext, ← hbu] at hsl
    exact hsl
  rw [byteToPosition]
  simp only [mkDoc]
  rw [if_neg (by omega), hsD, hslice1]
  rw [Option.map_some', Option.some_bind]
  rw [positionToByte]
  simp only [hs]
  cases hy : (lineStarts text)[findRow (lineStarts text) b + 1]? with
  | some y =>
    have hby : b < y := hnext y hy
    have hybound : IsBoundary text y :=
      lineStarts_mem_boundary (List.getElem?_mem hy)
    obtain ⟨r, z, hr, hry⟩ := hybound
    obtain ⟨w, hrq, hvw⟩ := boundary_nest hq hr (by omega)
    have htext2 : text = p ++ (u ++ w) ++ z := by
      rw [hr, hrq, hqp]
      simp [List.append_assoc]
    have hyw : y = byteLen p + byteLen (u ++ w) := by
      have h1 : byteLen r = byteLen q + byteLen w := by rw [hrq, byteLen_append]
      have h2 : byteLen (u ++ w) = byteLen u + byteLen w := byteLen_append u w
      omega
    have hslice2 : sliceBytes text (byteLen p) y = some (u ++ w) := by
      have hsl := sliceBytes_decomp p (u ++ w) z
      rw [← htext2, ← hyw] at hsl
      exact hsl
    simp only [Option.getD_some, hslice2, Option.map_some']
    congr 1
    rw [utf16TakeBytes_append]
    omega
  | none =>
    have htext3 : text = p ++ (u ++ v) ++ [] := by
      rw [List.append_nil, ← List.append_assoc, ← htext]
    have hlen : byteLen text = byteLen p + byteLen (u ++ v) := by
      conv_lhs => rw [htext, List.append_assoc, byteLen_append]
    have hslice3 : sliceBytes text (byteLen p) (byteLen text) = some (u ++ v) := by
      have hsl := sliceBytes_decomp p (u ++ v) []
      rw [← htext3, ← hlen] at hsl
      exact hsl
    simp only [Option.getD_none, hslice3, Option.map_some']
    congr 1
    rw [utf16TakeBytes_append]
    omega

/-- A minimal root used when a claim only concerns the position layer. -/
def trivialRoot : Cst := .mk ⟨0, 0⟩ .error [] []

/-- C1, counterexample: on the one-byte document "a", the byte offset
`b = 1 = len(text)` converts to the point (0, 1), but converting back
fails (`point_to_byte` demands the column to be strictly inside the
line), so the byte/point round trip does not return `b`. -/
theorem C1_counterexample :
    (byteToPoint (mkDoc ['a'] trivialRoot) 1).bind
      (fun p => pointToByte (mkDoc ['a'] trivialRoot) p) ≠ some 1 := by
  decide

/-- C1 (amended): for every document text and byte offset `b`, (i) if
`b` is a character boundary (as every parser-reported offset is), the
byte → editor-position → byte round trip succeeds and returns `b`, for
all `b` up to and including `len(text)`; (ii) the byte → point → byte
round trip succeeds and returns `b` for all `b < len(text)`; (iii) at
`b = len(text)` the point conversion back fails, because
`point_to_byte` requires `line_start + column` to be strictly less than
the start of the next line or the end of text. -/
theorem C1_roundTrips (text : List Char) (b : Nat) :
    (IsBoundary text b →
      (byteToPosition (mkDoc text trivialRoot) b).bind
        (fun p => positionToByte (mkDoc text trivialRoot) p) = some b) ∧
    (b < byteLen text →
      (byteToPoint (mkDoc text trivialRoot) b).bind
        (fun p => pointToByte (mkDoc text trivialRoot) p) = some b) ∧
    (b = byteLen text →
      (byteToPoint (mkDoc text trivialRoot) b).bind
        (fun p => pointToByte (mkDoc text trivialRoot) p) = none) :=
  ⟨fun hb => positionRoundTrip text trivialRoot b hb,
   fun hb => pointRoundTrip text trivialRoot b hb,
   fun hb => hb ▸ pointRoundTrip_end text trivialRoot⟩

/-- C1 witness: the three parts of `C1_roundTrips` evaluated on the
document "ab" at concrete offsets. -/
theorem C1_roundTrips_witness :
    ((byteToPosition (mkDoc ['a', 'b'] trivialRoot) 2).bind
       (fun p => positionToByte (mkDoc ['a', 'b'] trivialRoot) p) = some 2) ∧
    ((byteToPoint (mkDoc ['a', 'b'] trivialRoot) 1).bind
       (fun p => pointToByte (mkDoc ['a', 'b'] trivialRoot) p) = some 1) ∧
    ((byteToPoint (mkDoc ['a', 'b'] trivialRoot) 2).bind
       (fun p => pointToByte (mkDoc ['a', 'b'] trivialRoot) p) = none) :=
  ⟨(C1_roundTrips ['a', 'b'] 2).1 ⟨['a', 'b'], [], by decide, by decide⟩,
   (C1_roundTrips ['a', 'b'] 1).2.1 (by decide),
   (C1_roundTrips ['a', 'b'] 2).2.2 (by decide)⟩

/-- The containment path as the claim states it, built from the spec's
words: starting at the root, keep the node and descend into the first
child (in child order) whose inclusive range contains the cursor, so
the root comes first and the innermost node last; empty when the cursor
is outside the root's range. -/
def cursorPathRootFirst (cst : Cst) (cursor : Nat) : List Cst :=
  if cst.range.includes cursor then
    cst :: (match h : (cst.getChildren true true).find? (fun c => c.range.includes cursor) with
      | some c => cursorPathRootFirst c cursor
      | none => [])
  else []
termination_by cst.size
decreasing_by exact size_lt_of_mem_getChildren (List.mem_of_find?_eq_some h)

theorem getCstsOnCursor_some {cst : Cst} {cursor : Nat} {c : Cst}
    (hI : cst.range.includes cursor = true)
    (hf : (cst.getChildren true true).find? (fun x => x.range.includes cursor) = some c) :
    cst.getCstsOnCursor cursor = c.getCstsOnCursor cursor ++ [cst] := by
  rw [Cst.getCstsOnCursor, if_pos hI]
  congr 1
  split
  · rename_i c' heq
    rw [hf] at heq
    cases heq
    rfl
  · rename_i heq
    rw [hf] at heq
    cases heq

theorem getCstsOnCursor_none {cst : Cst} {cursor : Nat}
    (hI : cst.range.includes cursor = true)
    (hf : (cst.getChildren true true).find? (fun x => x.range.includes cursor) = none) :
    cst.getCstsOnCursor cursor = [cst] := by
  rw [Cst.getCstsOnCursor, if_pos hI]
  have : (match h : (cst.getChildren true true).find? (fun x => x.range.includes cursor) with
      | some c => c.getCstsOnCursor cursor
      | none => ([] : List Cst)) = [] := by
    split
    · rename_i c' heq
      rw [hf] at heq
      cases heq
    · rfl
  rw [this]
  rfl

theorem getCstsOnCursor_out {cst : Cst} {cursor : Nat}
    (hI : cst.range.includes cursor = false) :
    cst.getCstsOnCursor cursor = [] := by
  rw [Cst.getCstsOnCursor, if_neg (by simp [hI])]

theorem cursorPathRootFirst_some {cst : Cst} {cursor : Nat} {c : Cst}
    (hI : cst.range.includes cursor = true)
    (hf : (cst.getChildren true true).find? (fun x => x.range.includes cursor) = some c) :
    cursorPathRootFirst cst cursor = cst :: cursorPathRootFirst c cursor := by
  rw [cursorPathRootFirst, if_pos hI]
  congr 1
  split
  · rename_i c' heq
    rw [hf] at heq
    cases heq
    rfl
  · rename_i heq
    rw [hf] at heq
    cases heq

theorem cursorPathRootFirst_none {cst : Cst} {cursor : Nat}
    (hI : cst.range.includes cursor = true)
    (hf : (cst.getChildren true true).find? (fun x => x.range.includes cursor) = none) :
    cursorPathRootFirst cst cursor = [cst] := by
  rw [cursorPathRootFirst, if_pos hI]
  congr 1
  split
  · rename_i c' heq
    rw [hf] at heq
    cases heq
  · rfl

theorem cursorPathRootFirst_out {cst : Cst} {cursor : Nat}
    (hI : cst.range.includes cursor = false) :
    cursorPathRootFirst cst cursor = [] := by
  rw [cursorPathRootFirst, if_neg (by simp [hI])]

theorem getCstsOnCursor_eq_reverse_path_aux (cursor : Nat) :
    ∀ n (cst : Cst), cst.size ≤ n →
      cst.getCstsOnCursor cursor = (cursorPathRootFirst cst cursor).reverse := by
  intro n
  induction n with
  | zero =>
    intro cst h
    obtain ⟨r, ru, cs, es⟩ := cst
    simp [Cst.size] at h
  | succ n ih =>
    intro cst hsz
    by_cases hI : cst.range.includes cursor = true
    · cases hf : (cst.getChildren true true).find? (fun x => x.range.includes cursor) with
      | some c =>
        have hc := size_lt_of_mem_getChildren (List.mem_of_find?_eq_some hf)
        rw [getCstsOnCursor_some hI hf, cursorPathRootFirst_some hI hf,
          List.reverse_cons, ih c (by omega)]
      | none =>
        rw [getCstsOnCursor_none hI hf, cursorPathRootFirst_none hI hf]
        rfl
    · rw [getCstsOnCursor_out (by simpa using hI), cursorPathRootFirst_out (by simpa using hI)]
      rfl

/-- C4 (amended): `get_csts_on_cursor` returns the empty sequence when
the cursor lies outside the root's range, and otherwise exactly the
containment path from the root down to the innermost node containing
the cursor (first match in child order at each level), but ordered
innermost first and root last — the reverse of the order the claim
states. -/
theorem C4_cursorPath (cst : Cst) (cursor : Nat) :
    cst.getCstsOnCursor cursor = (cursorPathRootFirst cst cursor).reverse :=
  getCstsOnCursor_eq_reverse_path_aux cursor cst.size cst (Nat.le_refl _)

/-- A two-level demonstration tree: a source file spanning bytes 0..5
whose only child is a text node spanning bytes 0..2. -/
def demoInner : Cst := .mk ⟨0, 2⟩ (.text ['a', 'b'] []) [] []

def demoRoot4 : Cst := .mk ⟨0, 5⟩ (.sourceFile [demoInner]) [] []

/-- C4, counterexample: on the demonstration tree with the cursor at
byte 1, `get_csts_on_cursor` returns the path innermost-first
(`[inner, root]`), not root-first as the claim states. -/
theorem C4_counterexample :
    Cst.getCstsOnCursor demoRoot4 1 ≠ cursorPathRootFirst demoRoot4 1 := by
  have h1 : Cst.getCstsOnCursor demoRoot4 1 = [demoInner, demoRoot4] := by
    rw [@getCstsOnCursor_some demoRoot4 1 demoInner rfl rfl,
      @getCstsOnCursor_none demoInner 1 rfl rfl]
    rfl
  have h2 : cursorPathRootFirst demoRoot4 1 = [demoRoot4, demoInner] := by
    rw [@cursorPathRootFirst_some demoRoot4 1 demoInner rfl rfl,
      @cursorPathRootFirst_none demoInner 1 rfl rfl]
  rw [h1, h2]
  intro heq
  have := congrArg (List.map Cst.range) heq
  simp [demoInner, demoRoot4, Cst.range] at this

/-- The traversal the claim's amendment describes: each node precedes
its descendants, but sibling subtrees are visited in reverse child
order. -/
def searchNodeFirst (p : Cst → Bool) (e m : Bool) (cst : Cst) : List Cst :=
  (if p cst then [cst] else []) ++
    (((cst.getChildren e m).reverse.attach.map fun x =>
      searchNodeFirst p e m x.1).flatten)
termination_by cst.size
decreasing_by exact size_lt_of_mem_getChildren (List.mem_reverse.mp x.2)

/-- The traversal the claim states: source order, each node before its
descendants and sibling subtrees in child order. -/
def searchSourceOrder (p : Cst → Bool) (e m : Bool) (cst : Cst) : List Cst :=
  (if p cst then [cst] else []) ++
    (((cst.getChildren e m).attach.map fun x =>
      searchSourceOrder p e m x.1).flatten)
termination_by cst.size
decreasing_by exact size_lt_of_mem_getChildren x.2

theorem searchAux_eq (p : Cst → Bool) (e m : Bool) (cst : Cst) :
    Cst.searchAux p e m cst =
      ((cst.getChildren e m).map (Cst.searchAux p e m)).flatten ++
        (if p cst then [cst] else []) := by
  rw [Cst.searchAux, List.attach_map_val]

theorem searchNodeFirst_eq (p : Cst → Bool) (e m : Bool) (cst : Cst) :
    searchNodeFirst p e m cst =
      (if p cst then [cst] else []) ++
        ((cst.getChildren e m).reverse.map (searchNodeFirst p e m)).flatten := by
  rw [searchNodeFirst, List.attach_map_val]

theorem searchSourceOrder_eq (p : Cst → Bool) (e m : Bool) (cst : Cst) :
    searchSourceOrder p e m cst =
      (if p cst then [cst] else []) ++
        ((cst.getChildren e m).map (searchSourceOrder p e m)).flatten := by
  rw [searchSourceOrder, List.attach_map_val]

theorem searchAux_reverse_aux (p : Cst → Bool) (e m : Bool) :
    ∀ n (cst : Cst), cst.size ≤ n →
      (Cst.searchAux p e m cst).reverse = searchNodeFirst p e m cst := by
  intro n
  induction n with
  | zero =>
    intro cst h
    obtain ⟨r, ru, cs, es⟩ := cst
    simp [Cst.size] at h
  | succ n ih =>
    intro cst hsz
    rw [searchAux_eq, searchNodeFirst_eq, List.reverse_append,
      List.reverse_flatten, ← List.map_reverse, ← List.map_reverse, List.map_map]
    congr 1
    · split
      · rfl
      · rfl
    · congr 1
      apply List.map_congr_left
      intro c hc
      have hmem := List.mem_reverse.mp hc
      have := size_lt_of_mem_getChildren hmem
      exact ih c (by omega)

/-- C5 (amended): `search` collects exactly the nodes satisfying the
predicate with every node before its own descendants, but sibling
subtrees appear in reverse source order: the result is the
node-first/reversed-siblings traversal `searchNodeFirst`. -/
theorem C5_search (cst : Cst) (p : Cst → Bool) (e m : Bool) :
    cst.search p e m = searchNodeFirst p e m cst :=
  searchAux_reverse_aux p e m cst.size cst (Nat.le_refl _)

/-- Demonstration tree for the traversal order: a source file with two
tasks, each carrying only its text child. -/
def demoTextA : Cst := .mk ⟨0, 1⟩ (.text ['a'] []) [] []

def demoTaskA : Cst := .mk ⟨0, 1⟩ (.task none [] demoTextA []) [] []

def demoTextB : Cst := .mk ⟨2, 3⟩ (.text ['b'] []) [] []

def demoTaskB : Cst := .mk ⟨2, 3⟩ (.task none [] demoTextB []) [] []

def demoRoot5 : Cst := .mk ⟨0, 3⟩ (.sourceFile [demoTaskA, demoTaskB]) [] []

/-- C5, counterexample: with the always-true predicate on the two-task
tree, `search` yields the second task's subtree before the first
task's, not source order. -/
theorem C5_counterexample :
    Cst.search demoRoot5 (fun _ => true) false false ≠
      searchSourceOrder (fun _ => true) false false demoRoot5 := by
  intro h
  rw [C5_search] at h
  have hmap := congrArg (List.map Cst.range) h
  simp [searchNodeFirst_eq, searchSourceOrder_eq, Cst.getChildren,
    demoRoot5, demoTaskA, demoTaskB, demoTextA, demoTextB,
    Cst.rule, Cst.errors, Cst.comments, Cst.range] at hmap

/-- Every node of the contextual walk paired with its chain of
ancestors (root first, the node itself last), in visit order. -/
def nodePathsAux (pre : List Cst) (cst : Cst) : List (Cst × List Cst) :=
  (cst, pre ++ [cst]) ::
    ((cst.taskChildren.attach.map fun x => nodePathsAux (pre ++ [cst]) x.1).flatten)
termination_by cst.size
decreasing_by exact size_lt_of_mem_taskChildren x.2

/-- The context determined by a chain of ancestors alone: fold
`with_cst` over the chain starting from the empty context. -/
def pathContext (path : List Cst) : Context :=
  path.foldl Context.withCst Context.default

theorem searchTaskAux_eq (p : Context → Bool) (ctx : Context) (cst : Cst) :
    Cst.searchTaskAux p ctx cst =
      (if p (ctx.withCst cst) then [cst] else []) ++
        (cst.taskChildren.map (Cst.searchTaskAux p (ctx.withCst cst))).flatten := by
  rw [Cst.searchTaskAux, List.attach_map_val]

theorem nodePathsAux_eq (pre : List Cst) (cst : Cst) :
    nodePathsAux pre cst =
      (cst, pre ++ [cst]) ::
        (cst.taskChildren.map (nodePathsAux (pre ++ [cst]))).flatten := by
  rw [nodePathsAux, List.attach_map_val]

theorem pathContext_concat (pre : List Cst) (cst : Cst) :
    pathContext (pre ++ [cst]) = (pathContext pre).withCst cst := by
  rw [pathContext, pathContext, List.foldl_append]
  rfl

theorem searchTaskAux_paths (p : Context → Bool) :
    ∀ n (cst : Cst), cst.size ≤ n → ∀ pre : List Cst,
      Cst.searchTaskAux p (pathContext pre) cst =
        (nodePathsAux pre cst).filterMap
          (fun q => if p (pathContext q.2) then some q.1 else none) := by
  intro n
  induction n with
  | zero =>
    intro cst h
    obtain ⟨r, ru, cs, es⟩ := cst
    simp [Cst.size] at h
  | succ n ih =>
    intro cst hsz pre
    rw [searchTaskAux_eq, nodePathsAux_eq, List.filterMap_cons,
      ← pathContext_concat]
    by_cases hp : p (pathContext (pre ++ [cst])) = true
    · rw [hp]
      simp only [if_true, List.cons_append, List.nil_append]
      congr 1
      rw [List.filterMap_flatten, List.map_map]
      congr 1
      apply List.map_congr_left
      intro c hc
      have := size_lt_of_mem_taskChildren hc
      exact ih c (by omega) (pre ++ [cst])
    · rw [Bool.not_eq_true] at hp
      rw [hp]
      simp only [Bool.false_eq_true, if_false, List.nil_append]
      rw [List.filterMap_flatten, List.map_map]
      congr 1
      apply List.map_congr_left
      intro c hc
      have := size_lt_of_mem_taskChildren hc
      exact ih c (by omega) (pre ++ [cst])

/-- C9: during `search_task`, the context a node's predicate observes
is a function of that node's chain of ancestors alone — the walk from
the default context selects exactly the nodes whose ancestor-chain
context satisfies the predicate, so pushes made in one subtree are
never visible in a sibling subtree; and `with_cst` passes the context
through unchanged at comment and error nodes. -/
theorem C9_contextIsAncestorChain (root : Cst) (p : Context → Bool) :
    root.searchTask p =
      (nodePathsAux [] root).filterMap
        (fun q => if p (pathContext q.2) then some q.1 else none) ∧
    (∀ (ctx : Context) (c : Cst),
      (c.rule = Rule.error ∨ (∃ s, c.rule = Rule.comment s)) →
      ctx.withCst c = ctx) := by
  constructor
  · have h := searchTaskAux_paths p root.size root (Nat.le_refl _) []
    rw [Cst.searchTask]
    have hctx : pathContext [] = Context.default := rfl
    rw [← hctx]
    exact h
  · intro ctx c hc
    rcases hc with hc | ⟨s, hc⟩
    · rw [Context.withCst, hc]
    · rw [Context.withCst, hc]

/-- C9 witness: the characterization applied to the demonstration tree
with a concrete predicate, and the pass-through part applied to a
concrete comment node. -/
theorem C9_contextIsAncestorChain_witness :
    (Cst.searchTask demoRoot5 (fun ctx => decide (ctx.explicitStatus = [])) =
      (nodePathsAux [] demoRoot5).filterMap
        (fun q => if (fun ctx => decide (ctx.explicitStatus = []))
            (pathContext q.2) then some q.1 else none)) ∧
    Context.withCst Context.default (Cst.mk ⟨0, 1⟩ (.comment ['x']) [] []) =
      Context.default :=
  ⟨(C9_contextIsAncestorChain demoRoot5
      (fun ctx => decide (ctx.explicitStatus = []))).1,
   (C9_contextIsAncestorChain demoRoot5
      (fun ctx => decide (ctx.explicitStatus = []))).2 Context.default
      (Cst.mk ⟨0, 1⟩ (.comment ['x']) [] []) (Or.inr ⟨['x'], rfl⟩)⟩

/-- Diagnostic severity ranks (`lsp_types::DiagnosticSeverity`). -/
inductive Severity where
  | error
  | warning
  | information
  | hint
deriving DecidableEq, Repr

/-- A produced diagnostic: range, severity, message and whether the
`Unnecessary` tag is attached.  Ranges are kept in byte coordinates;
the source converts every range through `try_pos_into` to an editor
`Position` range before emitting it, a translation verified separately
by the position layer (`positionRoundTrip`), which does not change
which node's range a diagnostic carries. -/
structure Diag where
  range : TextRange
  severity : Severity
  message : String
  unnecessaryTag : Bool
deriving DecidableEq, Repr

/-- Modelled from the spec: a `Date` meta node of the
`tree_sitter_todome` ast (not under `src/`) — its own range and up to
three bounds `start`, `target`, `deadline`. -/
structure DateNode where
  range : TextRange
  start : Option Date
  target : Option Date
  deadline : Option Date
deriving DecidableEq, Repr

/-- Modelled from the spec: a meta entry of a task or header in the
ast document model; only the `Date` payload is observed by the date
diagnostics (`meta.as_date()`). -/
inductive MetaEntry where
  | date (d : DateNode)
  | other
deriving DecidableEq, Repr

/-- `Meta::as_date`. -/
def MetaEntry.asDate : MetaEntry → Option DateNode
  | .date d => some d
  | .other => none

/-- Modelled from the spec: an item (task or header) of the ast
document model used by `get_date_diagnostics`: its own node range, its
explicit status if any, its meta entries, for a task the range of its
`Text` child, and the nested child items. -/
inductive Item where
  | task (range : TextRange) (status : Option StatusKind) (meta : List MetaEntry)
      (textRange : TextRange) (children : List Item)
  | header (range : TextRange) (status : Option StatusKind) (meta : List MetaEntry)
      (children : List Item)

/-- The item's explicit status, when set. -/
def Item.statusOf : Item → Option StatusKind
  | .task _ st _ _ _ => st
  | .header _ st _ _ => st

/-- The item's nested child items. -/
def Item.childrenOf : Item → List Item
  | .task _ _ _ _ ch => ch
  | .header _ _ _ ch => ch

mutual
def Item.size : Item → Nat
  | .task _ _ _ _ ch => 1 + sizeListItem ch
  | .header _ _ _ ch => 1 + sizeListItem ch

def sizeListItem : List Item → Nat
  | [] => 0
  | i :: is => 1 + i.size + sizeListItem is
end

theorem size_lt_of_mem_sizeListItem {i : Item} {l : List Item} (h : i ∈ l) :
    i.size < sizeListItem l := by
  induction l with
  | nil => cases h
  | cons j l ih =>
    rcases List.mem_cons.mp h with h | h
    · subst h; simp [sizeListItem]; omega
    · have := ih h; simp [sizeListItem]; omega

theorem size_lt_of_mem_childrenOf {c it : Item} (h : c ∈ it.childrenOf) :
    c.size < it.size := by
  cases it with
  | task r st meta tx ch =>
    have := size_lt_of_mem_sizeListItem (show c ∈ ch from h)
    simp [Item.size]; omega
  | header r st meta ch =>
    have := size_lt_of_mem_sizeListItem (show c ∈ ch from h)
    simp [Item.size]; omega

/-- Modelled from the spec: `is_valid` on a status — the item is still
actionable unless its status is Done or Cancelled. -/
def statusIsValid : StatusKind → Bool
  | .done => false
  | .cancelled => false
  | _ => true

/-- `Document::get_date_diags_for_task` (diagnostics.rs): the date
rules for a single task, evaluated against today's date.  `task_range`
is `task.syntax().range()` — the range of the whole task node — and the
three ordering errors use `date.syntax().range()`. -/
def dateDiagsForTask (taskRange : TextRange) (meta : List MetaEntry)
    (today : Date) : List Diag :=
  match meta.findSome? MetaEntry.asDate with
  | none => []
  | some date =>
    (match date.start, date.target with
      | some s, some t =>
        if t < s then
          [⟨date.range, .error, "start date must be earlier than target date.", false⟩]
        else []
      | _, _ => []) ++
    (match date.target, date.deadline with
      | some t, some dl =>
        if dl < t then
          [⟨date.range, .error, "target date must be earlier than deadline.", false⟩]
        else []
      | _, _ => []) ++
    (match date.start, date.deadline with
      | some s, some dl =>
        if dl < s then
          [⟨date.range, .error, "start date must be earlier than deadline.", false⟩]
        else []
      | _, _ => []) ++
    (match date.start with
      | some s =>
        if today < s then
          [⟨taskRange, .hint, "this task is not started yet.", true⟩]
        else []
      | none => []) ++
    (match date.target with
      | some t =>
        if t < today then
          [⟨taskRange, .warning, "target date of this task is over.", false⟩]
        else if today = t then
          [⟨taskRange, .information, "this task is targeted today.", false⟩]
        else []
      | none => []) ++
    (match date.deadline with
      | some dl =>
        if dl < today then
          [⟨taskRange, .error, "this task is OVERDUE!", false⟩]
        else if today = dl then
          [⟨taskRange, .warning, "this task is due today.", false⟩]
        else if dl.subDays 7 ≤ today then
          [⟨taskRange, .information, "deadline is coming up.", false⟩]
        else []
      | none => [])

/-- Modelled from the spec: `items_nested` paired with each item's
`scoped_statuses` — every item at any depth together with the explicit
statuses on its ancestor chain, nearest first (the item's own status,
when set, first). -/
def itemsScopedAux (inherited : List StatusKind) (it : Item) :
    List (Item × List StatusKind) :=
  (it, it.statusOf.toList ++ inherited) ::
    ((it.childrenOf.attach.map fun x =>
      itemsScopedAux (it.statusOf.toList ++ inherited) x.1).flatten)
termination_by it.size
decreasing_by exact size_lt_of_mem_childrenOf x.2

/-- `Document::get_date_diagnostics`: keep the items whose nearest
scoped status is still valid (absent status means valid), then emit the
per-task date diagnostics for those that are tasks. -/
def getDateDiagnostics (root : List Item) (today : Date) : List Diag :=
  (((root.map (itemsScopedAux [])).flatten.filter
      fun q => ((q.2.head?.map statusIsValid).getD true)).flatMap
    fun q =>
      match q.1 with
      | .task r _ meta _ _ => dateDiagsForTask r meta today
      | .header _ _ _ _ => [])

/-- The claim's actionability predicate on the nearest enclosing
explicit status: absent means actionable; Done or Cancelled means not
actionable. -/
def actionableB : Option StatusKind → Bool
  | none => true
  | some .done => false
  | some .cancelled => false
  | some _ => true

/-- The per-item date diagnostics as the claim describes them: compute
the nearest enclosing explicit status (the item's own status if set,
else the nearest ancestor's), evaluate the task's date rules only when
that status is not Done/Cancelled (or absent), and recurse into the
children with the updated nearest status. -/
def specDateDiags (inherited : Option StatusKind) (today : Date) (it : Item) :
    List Diag :=
  (match it with
    | .task r _ meta _ _ =>
      if actionableB (it.statusOf.orElse fun _ => inherited) then
        dateDiagsForTask r meta today
      else []
    | .header _ _ _ _ => []) ++
  ((it.childrenOf.attach.map fun x =>
    specDateDiags (it.statusOf.orElse fun _ => inherited) today x.1).flatten)
termination_by it.size
decreasing_by exact size_lt_of_mem_childrenOf x.2

theorem itemsScopedAux_eq (inherited : List StatusKind) (it : Item) :
    itemsScopedAux inherited it =
      (it, it.statusOf.toList ++ inherited) ::
        (it.childrenOf.map (itemsScopedAux (it.statusOf.toList ++ inherited))).flatten := by
  rw [itemsScopedAux, List.attach_map_val]

theorem specDateDiags_eq (inherited : Option StatusKind) (today : Date) (it : Item) :
    specDateDiags inherited today it =
      (match it with
        | .task r _ meta _ _ =>
          if actionableB (it.statusOf.orElse fun _ => inherited) then
            dateDiagsForTask r meta today
          else []
        | .header _ _ _ _ => []) ++
      ((it.childrenOf.map fun c =>
        specDateDiags (it.statusOf.orElse fun _ => inherited) today c).flatten) := by
  rw [specDateDiags.eq_def, List.attach_map_val]

theorem head_toList_append (st : Option StatusKind) (l : List StatusKind) :
    (st.toList ++ l).head? = st.orElse fun _ => l.head? := by
  cases st <;> rfl

theorem mapValid_eq_actionable (o : Option StatusKind) :
    ((o.map statusIsValid).getD true) = actionableB o := by
  cases o with
  | none => rfl
  | some s => cases s <;> rfl

theorem flatMap_flatten_swap (L : List (List α)) (f : α → List β) :
    L.flatten.flatMap f = (L.map fun l => l.flatMap f).flatten := by
  induction L with
  | nil => rfl
  | cons l L ih => simp [ih]

theorem dateDiags_walk (today : Date) :
    ∀ n (it : Item), it.size ≤ n → ∀ inherited : List StatusKind,
      ((itemsScopedAux inherited it).filter
          (fun q => ((q.2.head?.map statusIsValid).getD true))).flatMap
        (fun q =>
          match q.1 with
          | .task r _ meta _ _ => dateDiagsForTask r meta today
          | .header _ _ _ _ => []) =
      specDateDiags inherited.head? today it := by
  intro n
  induction n with
  | zero =>
    intro it h
    cases it <;> simp [Item.size] at h
  | succ n ih =>
    intro it hsz inherited
    rw [itemsScopedAux_eq, specDateDiags_eq, List.filter_cons]
    have hhead : ((it.statusOf.toList ++ inherited).head?.map statusIsValid).getD true =
        actionableB (it.statusOf.orElse fun _ => inherited.head?) := by
      rw [head_toList_append, mapValid_eq_actionable]
    have htail :
        ((it.childrenOf.map (itemsScopedAux (it.statusOf.toList ++ inherited))).flatten.filter
            (fun q => ((q.2.head?.map statusIsValid).getD true))).flatMap
          (fun q =>
            match q.1 with
            | .task r _ meta _ _ => dateDiagsForTask r meta today
            | .header _ _ _ _ => []) =
        (it.childrenOf.map fun c =>
          specDateDiags (it.statusOf.orElse fun _ => inherited.head?) today c).flatten := by
      rw [List.filter_flatten, flatMap_flatten_swap, List.map_map, List.map_map]
      congr 1
      apply List.map_congr_left
      intro c hc
      have hlt := size_lt_of_mem_childrenOf hc
      have := ih c (by omega) (it.statusOf.toList ++ inherited)
      simp only [Function.comp]
      rw [this, head_toList_append]
    by_cases hact : actionableB (it.statusOf.orElse fun _ => inherited.head?) = true
    · rw [if_pos (by rw [hhead]; exact hact), List.flatMap_cons, htail]
      congr 1
      cases it with
      | task r st meta tx ch => simp only; rw [if_pos hact]
      | header r st meta ch => simp only
    · have hact' : actionableB (it.statusOf.orElse fun _ => inherited.head?) = false := by
        revert hact; cases actionableB (it.statusOf.orElse fun _ => inherited.head?) <;> simp
      rw [if_neg (by rw [hhead, hact']; simp), htail]
      cases it with
      | task r st meta tx ch =>
        simp only
        rw [if_neg (by rw [hact']; simp)]
        rfl
      | header r st meta ch => simp only; rfl

/-- C3: a task whose nearest enclosing explicit status (its own if set,
else the nearest ancestor's) is Done or Cancelled produces no date
diagnostics regardless of its own Date meta entries, and a task with no
explicit status anywhere in its ancestry has its date rules evaluated:
`get_date_diagnostics` equals the actionability-gated per-item
recursion `specDateDiags` started with no inherited status. -/
theorem C3_actionability (root : List Item) (today : Date) :
    getDateDiagnostics root today =
      (root.map (specDateDiags none today)).flatten := by
  rw [getDateDiagnostics, List.filter_flatten, flatMap_flatten_swap,
    List.map_map, List.map_map]
  congr 1
  apply List.map_congr_left
  intro it hmem
  have := dateDiags_walk today it.size it (Nat.le_refl _) []
  simpa using this

/-- The range of a task's `Text` child (the claim's intended diagnostic
range). -/
def Item.textRangeOf : Item → Option TextRange
  | .task _ _ _ tx _ => some tx
  | .header _ _ _ _ => none

/-- The scenario date meta of `"+ task (2024-05-01!) important"`:
deadline only, spanning the parenthesised date (bytes 7..20). -/
def scenarioDate : DateNode := ⟨⟨7, 20⟩, none, none, some (mkDate 2024 5 1)⟩

/-- The scenario task for `"+ task (2024-05-01!) important"`: the task
node spans the whole line (bytes 0..30) and its `Text` child
"important" spans bytes 21..30. -/
def scenarioTask : Item := .task ⟨0, 30⟩ none [.date scenarioDate] ⟨21, 30⟩ []

/-- The six task-level diagnostic messages. -/
def taskLevelMessages : List String :=
  ["this task is not started yet.", "target date of this task is over.",
   "this task is targeted today.", "this task is OVERDUE!",
   "this task is due today.", "deadline is coming up."]

/-- C2, counterexample: with system date 2024-06-01 and the task
modelling `"+ task (2024-05-01!) important"`, the single Error
diagnostic "this task is OVERDUE!" carries the whole task node's range
(bytes 0..30), which differs from the range of the task's `Text` child
"important" (bytes 21..30) that the claim states. -/
theorem C2_counterexample :
    getDateDiagnostics [scenarioTask] (mkDate 2024 6 1) =
      [⟨⟨0, 30⟩, .error, "this task is OVERDUE!", false⟩] ∧
    Item.textRangeOf scenarioTask = some ⟨21, 30⟩ ∧
    (⟨0, 30⟩ : TextRange) ≠ ⟨21, 30⟩ := by
  refine ⟨?_, by decide, by decide⟩
  rw [getDateDiagnostics]
  rw [show [scenarioTask].map (itemsScopedAux []) =
    [[(scenarioTask, [])]] from by rw [List.map_singleton, itemsScopedAux_eq]; rfl]
  simp +decide [scenarioTask, scenarioDate, dateDiagsForTask,
    MetaEntry.asDate, Date.subDays, mkDate]

/-- C2 (amended): every task-level date diagnostic (not-started Hint,
target-over Warning, targeted-today Information, OVERDUE Error,
due-today Warning, deadline-coming-up Information) carries the range of
the whole task node — not of the task's `Text` child — while the
date-ordering errors carry the Date node's range; in particular, with
system date 2024-06-01 and the task modelling
`"+ task (2024-05-01!) important"`, the single Error diagnostic
"this task is OVERDUE!" covers the whole task (bytes 0..30). -/
theorem C2_taskRange :
    (∀ (r : TextRange) (meta : List MetaEntry) (today : Date) (d : Diag),
      d ∈ dateDiagsForTask r meta today → d.message ∈ taskLevelMessages →
      d.range = r) ∧
    getDateDiagnostics [scenarioTask] (mkDate 2024 6 1) =
      [⟨⟨0, 30⟩, .error, "this task is OVERDUE!", false⟩] := by
  constructor
  · intro r meta today d hmem hmsg
    cases hfd : meta.findSome? MetaEntry.asDate with
    | none =>
      rw [dateDiagsForTask, hfd] at hmem
      cases hmem
    | some date =>
      rw [dateDiagsForTask, hfd] at hmem
      simp only [List.mem_append] at hmem
      rcases hmem with ((((h | h) | h) | h) | h) | h <;>
        · (try split at h) <;> (try split at h) <;> (try split at h) <;>
            (try split at h) <;>
            first
            | exact absurd h (List.not_mem_nil _)
            | (rw [List.mem_singleton] at h; subst h;
               first
               | rfl
               | exact absurd hmsg (by simp [taskLevelMessages]))
  · exact C2_counterexample.1

/-- C2 witness: the general range statement applied to the scenario
task's OVERDUE diagnostic. -/
theorem C2_taskRange_witness :
    (⟨⟨0, 30⟩, .error, "this task is OVERDUE!", false⟩ : Diag).range = ⟨0, 30⟩ :=
  C2_taskRange.1 ⟨0, 30⟩ [.date scenarioDate] (mkDate 2024 6 1)
    ⟨⟨0, 30⟩, .error, "this task is OVERDUE!", false⟩
    (by decide) (by decide)

/-- A node of the external parser's tree as `parse_node` consumes it:
kind name, byte range, ordered children, and named-field lookup.  The
parser is an external collaborator; this carries exactly the interface
`parse_node` reads (`kind()`, byte range, `children()`,
`child_by_field_name()`), with `is_error()` holding exactly for kind
"ERROR". -/
inductive RawNode where
  | mk (kind : String) (range : TextRange) (children : List RawNode)
      (fields : List (String × RawNode))

def RawNode.kindOf : RawNode → String
  | .mk k _ _ _ => k

def RawNode.rangeOf : RawNode → TextRange
  | .mk _ r _ _ => r

def RawNode.childrenOf : RawNode → List RawNode
  | .mk _ _ cs _ => cs

def RawNode.fieldsOf : RawNode → List (String × RawNode)
  | .mk _ _ _ fs => fs

/-- `Node::child_by_field_name`: the first field with the given name. -/
def fieldLookup (name : String) : List (String × RawNode) → Option RawNode
  | [] => none
  | (k, v) :: rest => if k = name then some v else fieldLookup name rest

mutual
def RawNode.size : RawNode → Nat
  | .mk _ _ cs fs => 1 + sizeListRaw cs + sizeFieldsRaw fs

def sizeListRaw : List RawNode → Nat
  | [] => 0
  | n :: ns => 1 + n.size + sizeListRaw ns

def sizeFieldsRaw : List (String × RawNode) → Nat
  | [] => 0
  | (_, n) :: ns => 1 + n.size + sizeFieldsRaw ns
end

theorem size_lt_of_mem_sizeListRaw {n : RawNode} {l : List RawNode} (h : n ∈ l) :
    n.size < sizeListRaw l := by
  induction l with
  | nil => cases h
  | cons m l ih =>
    rcases List.mem_cons.mp h with h | h
    · subst h; simp [sizeListRaw]; omega
    · have := ih h; simp [sizeListRaw]; omega

theorem size_lt_of_mem_rawChildren {c n : RawNode} (h : c ∈ n.childrenOf) :
    c.size < n.size := by
  obtain ⟨k, r, cs, fs⟩ := n
  have := size_lt_of_mem_sizeListRaw (show c ∈ cs from h)
  simp [RawNode.size]; omega

theorem size_lt_of_fieldLookup {name : String} {fs : List (String × RawNode)}
    {n : RawNode} (h : fieldLookup name fs = some n) :
    n.size < 1 + sizeFieldsRaw fs := by
  induction fs with
  | nil => cases h
  | cons p fs ih =>
    obtain ⟨k, v⟩ := p
    rw [fieldLookup] at h
    split at h
    · cases h; simp [sizeFieldsRaw]; omega
    · have := ih h; simp [sizeFieldsRaw]; omega

theorem size_lt_of_field {name : String} {node n : RawNode}
    (h : fieldLookup name node.fieldsOf = some n) : n.size < node.size := by
  obtain ⟨k, r, cs, fs⟩ := node
  have := size_lt_of_fieldLookup (show fieldLookup name fs = some n from h)
  simp [RawNode.size]; omega

theorem size_lt_of_field_child {name : String} {node f c : RawNode}
    (hf : fieldLookup name node.fieldsOf = some f) (hc : c ∈ f.childrenOf) :
    c.size < node.size :=
  Nat.lt_trans (size_lt_of_mem_rawChildren hc) (size_lt_of_field hf)

/-- The characters strictly after the first occurrence of `c`. -/
def afterFirst (c : Char) : List Char → Option (List Char)
  | [] => none
  | x :: s => if x = c then some s else afterFirst c s

/-- The capture of the regex `o(.*)c` (greedy): everything strictly
between the first `o` and the last `c` following it. -/
def extractDelim (o cl : Char) (s : List Char) : Option (List Char) :=
  (afterFirst o s).bind fun t => (afterFirst cl t.reverse).map List.reverse

/-- Split at the last occurrence of `c` (the greedy first group of
`\x7b(.*):(.*)\x7d`): the parts strictly before and strictly after it. -/
def splitAtLast (c : Char) (s : List Char) : Option (List Char × List Char) :=
  (afterFirst c s.reverse).map fun r =>
    (r.reverse, (s.reverse.takeWhile fun x => decide ¬(x = c)).reverse)

/-- The decimal value of a digit character. -/
def digitVal (c : Char) : Option Nat :=
  if c.isDigit then some (c.toNat - 48) else none

/-- Modelled from the spec: days of each month, for validating a
parsed calendar date as `chrono::NaiveDate` does. -/
def daysInMonth (y m : Nat) : Nat :=
  if m = 2 then
    if y % 4 = 0 ∧ (y % 100 ≠ 0 ∨ y % 400 = 0) then 29 else 28
  else if m = 4 ∨ m = 6 ∨ m = 9 ∨ m = 11 then 30
  else 31

/-- Modelled from the spec: `NaiveDate::parse_from_str(s, "%Y-%m-%d")`
— a strict `YYYY-MM-DD` calendar parse; anything malformed (wrong
shape, non-digits, month or day out of range, trailing input) fails. -/
def parseDate (s : List Char) : Option Date :=
  match s with
  | [y1, y2, y3, y4, h1, m1, m2, h2, d1, d2] =>
    if h1 = '-' ∧ h2 = '-' then
      match digitVal y1, digitVal y2, digitVal y3, digitVal y4,
          digitVal m1, digitVal m2, digitVal d1, digitVal d2 with
      | some a, some b, some c, some d, some e, some f, some g, some h =>
        let y := ((a * 10 + b) * 10 + c) * 10 + d
        let m := e * 10 + f
        let day := g * 10 + h
        if 1 ≤ m ∧ m ≤ 12 ∧ 1 ≤ day ∧ day ≤ daysInMonth y m then
          some (mkDate y m day)
        else none
      | _, _, _, _, _, _, _, _ => none
    else none
  | _ => none

/-- The failure modes of `Document::parse`/`Cst::parse_node`.  The
first four are `anyhow` errors returned to the caller; the `panic…`
constructors model Rust aborts (`unwrap` on a non-matching regex, an
invalid substring range, `unreachable!` on an unknown kind), which can
only arise from a malformed external tree. -/
inductive PError where
  | parseFailed
  | dateParse
  | missingText
  | missingStatusKind
  | panicRegex
  | panicSlice
  | panicUnknownKind
deriving DecidableEq, Repr

/-- `Cst::parse_node` (structure/syntax.rs): map an external parse node
to an owned `Cst` by kind name.  Delimiter captures follow the source's
greedy regexes; `keyval`'s two greedy groups split the braced interior
at the last colon.  `Except.error` carries both the propagated `anyhow`
errors and (as distinct `panic…` constructors) the Rust aborts. -/
def Cst.parseNode (content : List Char) (node : RawNode) : Except PError Cst := do
  let range := node.rangeOf
  let substr ←
    match sliceBytes content range.start range.stop with
    | none => Except.error PError.panicSlice
    | some s => Except.ok s
  let errs ← ((node.childrenOf.filter fun n => n.kindOf = "ERROR").attach.mapM
    fun x => Cst.parseNode content x.1)
  let cmts ← ((node.childrenOf.filter fun n => n.kindOf = "comment").attach.mapM
    fun x => Cst.parseNode content x.1)
  if node.kindOf = "source_file" then
    let children ← node.childrenOf.attach.mapM fun x => Cst.parseNode content x.1
    Except.ok (Cst.mk range (.sourceFile children) cmts errs)
  else if node.kindOf = "task" then
    let status ←
      match hs : fieldLookup "status" node.fieldsOf with
      | some n => (Cst.parseNode content n).map some
      | none => Except.ok none
    let meta ←
      match hm : fieldLookup "meta" node.fieldsOf with
      | some n => n.childrenOf.attach.mapM fun x => Cst.parseNode content x.1
      | none => Except.ok []
    let text ←
      match ht : fieldLookup "text" node.fieldsOf with
      | some n => Cst.parseNode content n
      | none => Except.error PError.missingText
    let children ←
      match hc : fieldLookup "children" node.fieldsOf with
      | some n => n.childrenOf.attach.mapM fun x => Cst.parseNode content x.1
      | none => Except.ok []
    Except.ok (Cst.mk range (.task status meta text children) cmts errs)
  else if node.kindOf = "header" then
    let status ←
      match hs : fieldLookup "status" node.fieldsOf with
      | some n => (Cst.parseNode content n).map some
      | none => Except.ok none
    let meta ←
      match hm : fieldLookup "meta" node.fieldsOf with
      | some n => n.childrenOf.attach.mapM fun x => Cst.parseNode content x.1
      | none => Except.ok []
    let children ←
      match hc : fieldLookup "children" node.fieldsOf with
      | some n => n.childrenOf.attach.mapM fun x => Cst.parseNode content x.1
      | none => Except.ok []
    Except.ok (Cst.mk range (.header status meta children) cmts errs)
  else if node.kindOf = "status" then
    match node.childrenOf.head? with
    | none => Except.error PError.missingStatusKind
    | some child =>
      let rule :=
        if child.kindOf = "status_todo" then Rule.status .todo
        else if child.kindOf = "status_doing" then Rule.status .doing
        else if child.kindOf = "status_done" then Rule.status .done
        else if child.kindOf = "status_cancel" then Rule.status .cancelled
        else Rule.error
      Except.ok (Cst.mk range rule cmts errs)
  else if node.kindOf = "priority" then
    match extractDelim '(' ')' substr with
    | none => Except.error PError.panicRegex
    | some v => Except.ok (Cst.mk range (.priority v) cmts errs)
  else if node.kindOf = "due" then
    match extractDelim '(' ')' substr with
    | none => Except.error PError.panicRegex
    | some sval =>
      match parseDate sval with
      | none => Except.error PError.dateParse
      | some d => Except.ok (Cst.mk range (.due d) cmts errs)
  else if node.kindOf = "keyval" then
    match extractDelim '{' '}' substr with
    | none => Except.error PError.panicRegex
    | some inner =>
      match splitAtLast ':' inner with
      | none => Except.error PError.panicRegex
      | some kv => Except.ok (Cst.mk range (.keyval kv.1 kv.2) cmts errs)
  else if node.kindOf = "category" then
    match extractDelim '[' ']' substr with
    | none => Except.error PError.panicRegex
    | some nm => Except.ok (Cst.mk range (.category nm) cmts errs)
  else if node.kindOf = "text" then
    let tags ← node.childrenOf.attach.mapM fun x => Cst.parseNode content x.1
    Except.ok (Cst.mk range (.text substr tags) cmts errs)
  else if node.kindOf = "tag" then
    match afterFirst '@' substr with
    | none => Except.error PError.panicRegex
    | some nm => Except.ok (Cst.mk range (.tag nm) cmts errs)
  else if node.kindOf = "ERROR" then
    Except.ok (Cst.mk range Rule.error [] [])
  else if node.kindOf = "comment" then
    Except.ok (Cst.mk range (.comment substr) cmts errs)
  else
    Except.error PError.panicUnknownKind
termination_by node.size
decreasing_by
  all_goals
    first
    | exact size_lt_of_mem_rawChildren (List.mem_of_mem_filter x.2)
    | exact size_lt_of_mem_rawChildren x.2
    | exact size_lt_of_field hs
    | exact size_lt_of_field_child hm x.2
    | exact size_lt_of_field_child hc x.2
    | exact size_lt_of_field ht

/-- `Document::parse`: run the external parser once (`none` models
"`parse` returned no tree"), convert the root via `parse_node`, and
assemble text, line table and root. -/
def Document.parse (externalParse : List Char → Option RawNode)
    (text : List Char) : Except PError Document :=
  match externalParse text with
  | none => Except.error PError.parseFailed
  | some node => (Cst.parseNode text node).map fun root => mkDoc text root

/-- The document cache (`DocumentCache`, a `HashMap<Url, Document>`),
modelled as an association list keyed by the URL string; insertion
replaces any previous binding. -/
def DocumentCache : Type := List (String × Document)

/-- `DocumentCache::get`. -/
def DocumentCache.get : DocumentCache → String → Option Document
  | [], _ => none
  | (k, d) :: rest, key => if k = key then some d else DocumentCache.get rest key

/-- `HashMap::insert` on the cache. -/
def DocumentCache.insert (cache : DocumentCache) (key : String) (d : Document) :
    DocumentCache :=
  (key, d) :: cache.filter fun p => decide ¬(p.1 = key)

/-- `DocumentCache::register_or_update`: parse first; only on success
insert the new document.  The pair returns the cache after the call and
the result handed to the caller. -/
def DocumentCache.registerOrUpdate (externalParse : List Char → Option RawNode)
    (cache : DocumentCache) (url : String) (text : List Char) :
    DocumentCache × Except PError Document :=
  match Document.parse externalParse text with
  | Except.error e => (cache, Except.error e)
  | Except.ok doc => (cache.insert url doc, Except.ok doc)

theorem cacheGet_filter_ne (cache : DocumentCache) (url k : String)
    (hk : k ≠ url) :
    DocumentCache.get (cache.filter fun p => decide ¬(p.1 = url)) k =
      DocumentCache.get cache k := by
  induction cache with
  | nil => rfl
  | cons p rest ih =>
    obtain ⟨k', d⟩ := p
    by_cases hp : k' = url
    · subst hp
      rw [List.filter_cons_of_neg (by simp)]
      rw [ih, DocumentCache.get, if_neg (by intro h; exact hk h.symm)]
    · rw [List.filter_cons_of_pos (by simpa using hp)]
      rw [DocumentCache.get, DocumentCache.get]
      split
      · rfl
      · exact ih

/-- C6: if `register_or_update` fails with one of the ParseFailure
modes the claim lists (no tree from the external parser, a due date
that does not parse as a calendar date, a task with no text field),
the cache is exactly as before: every identifier, including the one
being registered, maps to the same document as before the call. -/
theorem C6_registerFailureKeepsCache
    (externalParse : List Char → Option RawNode) (cache : DocumentCache)
    (url : String) (text : List Char) (e : PError)
    (he : (DocumentCache.registerOrUpdate externalParse cache url text).2 =
      Except.error e)
    (hmode : e = PError.parseFailed ∨ e = PError.dateParse ∨ e = PError.missingText) :
    ∀ k, DocumentCache.get
        (DocumentCache.registerOrUpdate externalParse cache url text).1 k =
      DocumentCache.get cache k := by
  intro k
  rw [DocumentCache.registerOrUpdate] at he ⊢
  cases hp : Document.parse externalParse text with
  | error e2 => rfl
  | ok doc => rw [hp] at he; cases he

/-- C6 witness: a cache holding one document, an external parser that
produces no tree; registration fails with `parseFailed` and the cached
entry for the very identifier being re-registered is unchanged. -/
theorem C6_registerFailureKeepsCache_witness :
    DocumentCache.get
      (DocumentCache.registerOrUpdate (fun _ => none)
        [("file:a", mkDoc ['x'] trivialRoot)] "file:a" ['y']).1 "file:a" =
    DocumentCache.get [("file:a", mkDoc ['x'] trivialRoot)] "file:a" :=
  C6_registerFailureKeepsCache (fun _ => none)
    [("file:a", mkDoc ['x'] trivialRoot)] "file:a" ['y'] PError.parseFailed
    rfl (Or.inl rfl) "file:a"

/-- C10: `register_or_update` modifies at most the entry for its own
identifier — every other identifier resolves to the same document
before and after the call — and when parsing fails the whole cache is
unchanged.  `get`, `get_diagnostics` and `get_completion` take the
cache and document by shared reference (`&self`) with no interior
mutability, which the embedding reflects by making them pure functions
of their inputs. -/
theorem C10_registerFrame
    (externalParse : List Char → Option RawNode) (cache : DocumentCache)
    (url : String) (text : List Char) :
    (∀ k, k ≠ url →
      DocumentCache.get
          (DocumentCache.registerOrUpdate externalParse cache url text).1 k =
        DocumentCache.get cache k) ∧
    (∀ e, (DocumentCache.registerOrUpdate externalParse cache url text).2 =
        Except.error e →
      (DocumentCache.registerOrUpdate externalParse cache url text).1 = cache) := by
  constructor
  · intro k hk
    rw [DocumentCache.registerOrUpdate]
    cases hp : Document.parse externalParse text with
    | error e => rfl
    | ok doc =>
      simp only
      rw [DocumentCache.insert, DocumentCache.get,
        if_neg (by intro h; exact hk h.symm)]
      exact cacheGet_filter_ne cache url k hk
  · intro e he
    rw [DocumentCache.registerOrUpdate] at he ⊢
    cases hp : Document.parse externalParse text with
    | error e2 => rfl
    | ok doc => rw [hp] at he; cases he

/-- C10 witness: with a parser that yields a bare source-file node,
registering under one identifier leaves another identifier's entry
unchanged, and a failing registration leaves the cache value intact. -/
theorem C10_registerFrame_witness :
    (DocumentCache.get
        (DocumentCache.registerOrUpdate
          (fun _ => some (RawNode.mk "source_file" ⟨0, 1⟩ [] []))
          [("file:b", mkDoc ['x'] trivialRoot)] "file:a" ['y']).1 "file:b" =
      DocumentCache.get [("file:b", mkDoc ['x'] trivialRoot)] "file:b") ∧
    (DocumentCache.registerOrUpdate (fun _ => none)
        [("file:b", mkDoc ['x'] trivialRoot)] "file:a" ['y']).1 =
      [("file:b", mkDoc ['x'] trivialRoot)] :=
  ⟨(C10_registerFrame (fun _ => some (RawNode.mk "source_file" ⟨0, 1⟩ [] []))
      [("file:b", mkDoc ['x'] trivialRoot)] "file:a" ['y']).1 "file:b"
      (by decide),
   (C10_registerFrame (fun _ => none)
      [("file:b", mkDoc ['x'] trivialRoot)] "file:a" ['y']).2
      PError.parseFailed rfl⟩

/-- `str::rfind(c)`: the byte index of the start of the last occurrence
of `c`. -/
def lastIndexByte (s : List Char) (c : Char) : Option Nat :=
  (afterFirst c s.reverse).map fun r => byteLen r.reverse

/-- `civil_from_days`: the `(year, month, day)` triple of a day number,
the inverse direction of `mkDate` used to format due-date candidates. -/
def civilFromDays (z0 : Date) : Nat × Nat × Nat :=
  let z : Int := z0 + 719468
  let era : Int := z.fdiv 146097
  let doe : Nat := (z - era * 146097).toNat
  let yoe : Nat := (doe - doe / 1460 + doe / 36524 - doe / 146096) / 365
  let y : Int := era * 400 + yoe
  let doy : Nat := doe - (365 * yoe + yoe / 4 - yoe / 100)
  let mp : Nat := (5 * doy + 2) / 153
  let d : Nat := doy - (153 * mp + 2) / 5 + 1
  let m : Nat := if mp < 10 then mp + 3 else mp - 9
  ((if m ≤ 2 then y + 1 else y).toNat, m, d)

/-- Zero-padded decimal rendering. -/
def padNum (width n : Nat) : List Char :=
  let s := (Nat.repr n).toList
  List.replicate (width - s.length) '0' ++ s

/-- `date.format("%Y-%m-%d")`. -/
def formatDate (d : Date) : List Char :=
  let c := civilFromDays d
  padNum 4 c.1 ++ ['-'] ++ padNum 2 c.2.1 ++ ['-'] ++ padNum 2 c.2.2

/-- A completion candidate: label, optional human-readable detail, and
the text edit (replacement range in editor positions plus new text). -/
structure CompletionItem where
  label : List Char
  detail : Option (List Char)
  editStart : Position
  editStop : Position
  newText : List Char
deriving DecidableEq, Repr

/-- `Document::get_category_completions` (completion.rs).  The
`HashSet` collecting names is modelled by `List.dedup` (the set's
iteration order is unspecified in Rust; the claims never depend on
candidate order).  `none` models the Rust panics: the byte-slice
`text[cursor..cursor + 1]` panics when the cursor sits at the end of
the text (or before a multi-byte character), and the `unwrap`s on the
position conversions. -/
def getCategoryCompletions (d : Document) (cursor : Nat) :
    Option (List CompletionItem) :=
  match byteToPoint d cursor with
  | none => some []
  | some pt =>
    let startOfLine := d.lines.getD pt.row 0
    match sliceBytes d.text startOfLine cursor with
    | none => none
    | some beforeCursor =>
      match sliceBytes d.text cursor (cursor + 1) with
      | none => none
      | some afterCursor =>
        let posOpen := (lastIndexByte beforeCursor '[').getD (byteLen beforeCursor)
        let posClose := if afterCursor = [']'] then 1 else 0
        match byteToPosition d (startOfLine + posOpen) with
        | none => none
        | some startPos =>
          match byteToPosition d (cursor + posClose) with
          | none => none
          | some endPos =>
            let names := ((d.root.search
                (fun cst => cst.rule.asCategory.isSome &&
                  !(cst.range.includes cursor)) false false).filterMap
              fun cst => cst.rule.asCategory).dedup
            some (names.map fun s =>
              { label := '[' :: s ++ [']'], detail := none,
                editStart := startPos, editStop := endPos,
                newText := '[' :: s ++ [']'] })

/-- `Document::get_tag_completions`: like the category branch but keyed
on `@`, with no look-ahead past the cursor, excluding tags whose range
contains `cursor - 1`. -/
def getTagCompletions (d : Document) (cursor : Nat) :
    Option (List CompletionItem) :=
  match byteToPoint d cursor with
  | none => some []
  | some pt =>
    let startOfLine := d.lines.getD pt.row 0
    match sliceBytes d.text startOfLine cursor with
    | none => none
    | some beforeCursor =>
      let posOpen := (lastIndexByte beforeCursor '@').getD (byteLen beforeCursor)
      match byteToPosition d (startOfLine + posOpen) with
      | none => none
      | some startPos =>
        match byteToPosition d cursor with
        | none => none
        | some endPos =>
          let names := ((d.root.search
              (fun cst => cst.rule.asTag.isSome &&
                (decide (0 < cursor) && !(cst.range.includes (cursor - 1))))
              false false).filterMap fun cst => cst.rule.asTag).dedup
          some (names.map fun s =>
            { label := '@' :: s, detail := none,
              editStart := startPos, editStop := endPos,
              newText := '@' :: s })

/-- `Document::get_due_completion`: four fixed date candidates; the
replacement range is computed exactly like the category branch (with
parentheses), including the panicking one-byte look-ahead slice. -/
def getDueCompletion (d : Document) (today : Date) (cursor : Nat) :
    Option (List CompletionItem) :=
  match byteToPoint d cursor with
  | none => some []
  | some pt =>
    let startOfLine := d.lines.getD pt.row 0
    match sliceBytes d.text startOfLine cursor with
    | none => none
    | some beforeCursor =>
      match sliceBytes d.text cursor (cursor + 1) with
      | none => none
      | some afterCursor =>
        let posOpen := (lastIndexByte beforeCursor '(').getD (byteLen beforeCursor)
        let posClose := if afterCursor = [')'] then 1 else 0
        match byteToPosition d (startOfLine + posOpen) with
        | none => none
        | some startPos =>
          match byteToPosition d (cursor + posClose) with
          | none => none
          | some endPos =>
            let candidates : List (Date × List Char) :=
              [(today, String.toList "today"),
               (today.addDays 1, String.toList "tomorrow"),
               (today.addDays 2, String.toList "2 days later"),
               (today.addDays 7, String.toList "1 week later")]
            some (candidates.map fun c =>
              { label := '(' :: formatDate c.1 ++ [')'], detail := some c.2,
                editStart := startPos, editStop := endPos,
                newText := '(' :: formatDate c.1 ++ [')'] })

/-- `Document::get_completion`: convert the editor position to a byte
cursor (empty result when the conversion fails), resolve the node path
under the cursor, bail out inside text or comments, and dispatch on the
trigger character or the innermost node kind. -/
def getCompletion (d : Document) (today : Date) (trigger : Option String)
    (pos : Position) : Option (List CompletionItem) :=
  match positionToByte d pos with
  | none => some []
  | some cursor =>
    let csts := d.root.getCstsOnCursor cursor
    let bail :=
      match csts.head? with
      | some cst =>
        match cst.rule with
        | .text _ _ => true
        | .comment _ => true
        | _ => false
      | none => false
    if bail then some []
    else
      let isCat :=
        match csts.head? with
        | some cst => match cst.rule with | .category _ => true | _ => false
        | none => false
      let isDuePrio :=
        match csts.head? with
        | some cst =>
          match cst.rule with
          | .due _ => true
          | .priority _ => true
          | _ => false
        | none => false
      let isTag :=
        match csts.head? with
        | some cst => match cst.rule with | .tag _ => true | _ => false
        | none => false
      if trigger = some "[" ∨ isCat = true then getCategoryCompletions d cursor
      else if trigger = some "(" ∨ isDuePrio = true then getDueCompletion d today cursor
      else if trigger = some "@" ∨ isTag = true then getTagCompletions d cursor
      else some []

/-- The document `"+ a ("` with an error node for the dangling
parenthesis: task spanning the line with text child "a" and an ERROR
side-node at bytes 4..5. -/
def dueErr : Cst := .mk ⟨4, 5⟩ .error [] []

def dueText : Cst := .mk ⟨2, 3⟩ (.text ['a'] []) [] []

def dueTask : Cst := .mk ⟨0, 5⟩ (.task none [] dueText []) [] [dueErr]

def dueRoot : Cst := .mk ⟨0, 5⟩ (.sourceFile [dueTask]) [] []

def dueDoc : Document := mkDoc ['+', ' ', 'a', ' ', '('] dueRoot

/-- C7: the safety claim fails — with the cursor at the very end of
the document `"+ a ("` and trigger `(`, `get_completion` reaches the
slice `text[cursor..cursor + 1]` with `cursor = len(text)`, an
out-of-bounds byte slice that panics in Rust (modelled by `none`). -/
theorem C7_completionPanicsAtEnd :
    getCompletion dueDoc (mkDate 2024 6 1) (some "(") ⟨0, 5⟩ = none := by
  have h1 : positionToByte dueDoc ⟨0, 5⟩ = some 5 := by decide
  have hc : dueDoc.root.getCstsOnCursor 5 = [dueErr, dueTask, dueRoot] := by
    show Cst.getCstsOnCursor dueRoot 5 = _
    rw [@getCstsOnCursor_some dueRoot 5 dueTask rfl rfl,
      @getCstsOnCursor_some dueTask 5 dueErr rfl rfl,
      @getCstsOnCursor_none dueErr 5 rfl rfl]
    rfl
  simp only [getCompletion, h1, hc]
  decide

/-- The document `"+ a [work]\n+ b ["` of the category-completion
scenario: first task with category `[work]` and text "a", second task
with text "b" and an error node for the dangling `[`. -/
def catNode : Cst := .mk ⟨4, 10⟩ (.category ['w', 'o', 'r', 'k']) [] []

def catText1 : Cst := .mk ⟨2, 3⟩ (.text ['a'] []) [] []

def catTask1 : Cst := .mk ⟨0, 10⟩ (.task none [catNode] catText1 []) [] []

def catErr2 : Cst := .mk ⟨15, 16⟩ .error [] []

def catText2 : Cst := .mk ⟨13, 14⟩ (.text ['b'] []) [] []

def catTask2 : Cst := .mk ⟨11, 16⟩ (.task none [] catText2 []) [] [catErr2]

def catRoot : Cst := .mk ⟨0, 16⟩ (.sourceFile [catTask1, catTask2]) [] []

def catDoc : Document :=
  mkDoc ['+', ' ', 'a', ' ', '[', 'w', 'o', 'r', 'k', ']', '\n',
         '+', ' ', 'b', ' ', '['] catRoot

/-- C8: in the claim's own scenario — document `"+ a [work]\n+ b ["`,
cursor immediately after the second `[` (the end of the text), trigger
`[` — `get_category_completions` evaluates `text[cursor..cursor + 1]`
with `cursor = len(text)`, an out-of-bounds byte slice that panics in
Rust (modelled by `none`); no candidate list is ever produced. -/
theorem C8_categoryCompletionPanics :
    getCompletion catDoc (mkDate 2024 6 1) (some "[") ⟨1, 5⟩ = none := by
  have h1 : positionToByte catDoc ⟨1, 5⟩ = some 16 := by decide
  have hc : catDoc.root.getCstsOnCursor 16 = [catErr2, catTask2, catRoot] := by
    show Cst.getCstsOnCursor catRoot 16 = _
    rw [@getCstsOnCursor_some catRoot 16 catTask2 rfl rfl,
      @getCstsOnCursor_some catTask2 16 catErr2 rfl rfl,
      @getCstsOnCursor_none catErr2 16 rfl rfl]
    rfl
  simp only [getCompletion, h1, hc]
  decide
